import Mathlib

/-
Verification of the whole-kernel common-subexpression-elimination pass
(taichi/transforms/whole_kernel_cse.cpp) against its specification.

The IR tree is embedded as a single first-order inductive `IRNode`:
a block is a `consB`/`nilB` chain of statements, an if-statement owns two
optional branch blocks (`someB`/`noneB`), and every non-container statement
is a `basic` node carrying its instance id, its intrinsic CSE-eligibility
(the `Stmt::common_statement_eliminable()` member, modelled from the spec:
an intrinsic per-kind boolean), its operand list (instance ids of the
statements it reads; operand pointers are modelled by instance ids) and its
runtime kind.  The three delegated analysis oracles
(`irpass::analysis::same_statements`, `definitely_same_address`,
`same_value`) are parameters, as the spec treats them.
-/

namespace WKCse

/-- Runtime kind of a non-container statement.  `GlobalPtrStmt` carries its
activation flag; `LoopUniqueStmt` carries its input operand (a statement
reference, modelled as an instance id) and its "covers" set; every other
statement kind is an opaque tag. -/
inductive StmtKind where
  | globalPtr (activate : Bool)
  | loopUnique (input : Nat) (covers : Finset Nat)
  | generic (tag : Nat)
deriving DecidableEq

/-- Key of the visibility index: `std::type_index(typeid(*stmt))`.  Two
statements share a key exactly when they have the same dynamic type; the
data fields of the kind do not participate. -/
inductive KindKey where
  | ptrK
  | luK
  | genK (tag : Nat)
deriving DecidableEq

/-- Dynamic-type key of a statement kind. -/
def kindKeyOf : StmtKind → KindKey
  | .globalPtr _ => .ptrK
  | .loopUnique _ _ => .luK
  | .generic t => .genK t

/-- The IR tree.  `noneB`/`someB` model an absent/present branch block of an
if-statement, `nilB`/`consB` model the ordered statement list of a block,
`basic` models a non-container statement and `ifS` models `IfStmt` (its
operand list holds the instance ids it reads, e.g. its condition). -/
inductive IRNode where
  | noneB : IRNode
  | someB (b : IRNode) : IRNode
  | nilB : IRNode
  | consB (s : IRNode) (rest : IRNode) : IRNode
  | basic (id : Nat) (elig : Bool) (ops : List Nat) (kind : StmtKind) : IRNode
  | ifS (id : Nat) (ops : List Nat) (tb : IRNode) (fb : IRNode) : IRNode
deriving DecidableEq

namespace IRNode

/-- Instance id of a statement node. -/
def stmtId : IRNode → Option Nat
  | .basic i _ _ _ => some i
  | .ifS i _ _ _ => some i
  | _ => none

/-- Instance ids of all statements of a tree, in preorder (an if-statement
before the statements of its branches). -/
def idsOf : IRNode → List Nat
  | .someB b => idsOf b
  | .consB h t => idsOf h ++ idsOf t
  | .basic i _ _ _ => [i]
  | .ifS i _ tb fb => i :: (idsOf tb ++ idsOf fb)
  | _ => []

/-- Total number of statements of a tree. -/
def size : IRNode → Nat
  | .someB b => size b
  | .consB h t => size h + size t
  | .basic _ _ _ _ => 1
  | .ifS _ _ tb fb => 1 + size tb + size fb
  | _ => 0

/-- Number of CSE-eligible statements present in a tree (if-statements are
containers and are never offered to the generic matcher). -/
def eligCount : IRNode → Nat
  | .someB b => eligCount b
  | .consB h t => eligCount h + eligCount t
  | .basic _ e _ _ => if e then 1 else 0
  | .ifS _ _ tb fb => eligCount tb + eligCount fb
  | _ => 0

/-- First (preorder) statement with the given instance id; models
dereferencing a statement pointer, given that instance ids are unique in a
well-formed IR. -/
def findStmt : IRNode → Nat → Option IRNode
  | .someB b, i => findStmt b i
  | .consB h t, i =>
      match findStmt h i with
      | some s => some s
      | none => findStmt t i
  | .basic j e o k, i => if j = i then some (.basic j e o k) else none
  | .ifS j o tb fb, i =>
      if j = i then some (.ifS j o tb fb)
      else
        match findStmt tb i with
        | some s => some s
        | none => findStmt fb i
  | _, _ => none

/-- Replace the first (preorder) statement with the given instance id by the
given node; models in-place mutation of the pointed-to statement.  The flag
reports whether a replacement happened. -/
def setStmt : IRNode → Nat → IRNode → IRNode × Bool
  | .someB b, i, r =>
      let p := setStmt b i r
      (.someB p.1, p.2)
  | .consB h t, i, r =>
      let p := setStmt h i r
      if p.2 then (.consB p.1 t, true)
      else
        let q := setStmt t i r
        (.consB h q.1, q.2)
  | .basic j e o k, i, r => if j = i then (r, true) else (.basic j e o k, false)
  | .ifS j o tb fb, i, r =>
      if j = i then (r, true)
      else
        let p := setStmt tb i r
        if p.2 then (.ifS j o p.1 fb, true)
        else
          let q := setStmt fb i r
          (.ifS j o tb q.1, q.2)
  | n, _, _ => (n, false)

/-- Apply a function to the operand list of every statement of a tree. -/
def mapAllOps (f : List Nat → List Nat) : IRNode → IRNode
  | .someB b => .someB (mapAllOps f b)
  | .consB h t => .consB (mapAllOps f h) (mapAllOps f t)
  | .basic j e o k => .basic j e (f o) k
  | .ifS j o tb fb => .ifS j (f o) (mapAllOps f tb) (mapAllOps f fb)
  | n => n

/-- Rewrite one operand id into another. -/
def rewriteOps (old new : Nat) (o : List Nat) : List Nat :=
  o.map fun x => if x = old then new else x

/-- `Stmt::replace_usages_with` restricted to a region: every statement of
the region that reads `old` now reads `new`. -/
def replaceUsages (n : IRNode) (old new : Nat) : IRNode :=
  mapAllOps (rewriteOps old new) n

/-- Does the tree contain a statement with instance id `a` whose operand
list contains `x`?  (Container statements count: an if-statement's own
operand list is inspected as well as its branches.) -/
def hasStmtWithOp : IRNode → Nat → Nat → Bool
  | .someB b, a, x => hasStmtWithOp b a x
  | .consB h t, a, x => hasStmtWithOp h a x || hasStmtWithOp t a x
  | .basic i _ o _, a, x => decide (i = a) && decide (x ∈ o)
  | .ifS i o tb fb, a, x =>
      (decide (i = a) && decide (x ∈ o)) || hasStmtWithOp tb a x ||
        hasStmtWithOp fb a x
  | _, _, _ => false

end IRNode

open IRNode

/-- The `MarkUndone` visitor: traverse the whole tree from the root and
erase from `visited` the instance id of every statement whose operand list
contains the modified operand `x`.  `visit(Stmt*)` handles plain statements
and `preprocess_container_stmt` handles container statements, whose
sub-blocks are then traversed as well. -/
def markUndone (visited : Finset Nat) (x : Nat) : IRNode → Finset Nat
  | .someB b => markUndone visited x b
  | .consB h t => markUndone (markUndone visited x h) x t
  | .basic i _ o _ => if x ∈ o then visited.erase i else visited
  | .ifS i o tb fb =>
      let v := if x ∈ o then visited.erase i else visited
      markUndone (markUndone v x tb) x fb
  | _ => visited

/-- The three delegated analysis oracles, passed as parameters.
`sameValue` receives the two input operands of `LoopUniqueStmt`s (statement
references, modelled as instance ids). -/
structure Oracles where
  sameAddr : IRNode → IRNode → Bool
  sameValue : Nat → Nat → Bool
  sameStmts : IRNode → IRNode → Bool

/-- `WholeKernelCSE::common_statement_eliminable(this_stmt, prev_stmt)`.
The caller guarantees that `prev_stmt` has the same dynamic type as
`this_stmt` (candidates are keyed by `std::type_index`), so the inner
mismatch arms are unreachable.  For `LoopUniqueStmt`, a successful check
mutates the surviving `prev_stmt` in place (its "covers" set absorbs
`this_stmt`'s); the possibly-updated `prev_stmt` is returned alongside the
boolean. -/
def cseEliminable (O : Oracles) (thisS prevS : IRNode) : Bool × IRNode :=
  match thisS with
  | .basic _ _ _ (.globalPtr aAct) =>
      (match prevS with
       | .basic _ _ _ (.globalPtr bAct) =>
           (O.sameAddr thisS prevS && ((aAct == bAct) || bAct), prevS)
       | _ => (false, prevS))
  | .basic _ _ _ (.loopUnique aIn aCov) =>
      (match prevS with
       | .basic pj pe po (.loopUnique bIn bCov) =>
           if O.sameValue aIn bIn then
             (true, .basic pj pe po (.loopUnique bIn (bCov ∪ aCov)))
           else (false, prevS)
       | _ => (false, prevS))
  | _ => (O.sameStmts thisS prevS, prevS)

/-- Claim C1: for a new `GlobalPtrStmt` `a` checked against a previously
registered `GlobalPtrStmt` `b`, the equivalence check returns true iff the
same-address oracle holds for `(a, b)` and either the activation flags
agree or `b` already activates; in particular an activating `a` is never
matched against a non-activating `b`. -/
theorem globalptr_equivalence_iff (O : Oracles) (ai : Nat) (ae : Bool)
    (ao : List Nat) (aAct : Bool) (pj : Nat) (pe : Bool) (po : List Nat)
    (bAct : Bool) :
    ((cseEliminable O (.basic ai ae ao (.globalPtr aAct))
        (.basic pj pe po (.globalPtr bAct))).1 = true ↔
      (O.sameAddr (.basic ai ae ao (.globalPtr aAct))
          (.basic pj pe po (.globalPtr bAct)) = true ∧
        (aAct = bAct ∨ bAct = true))) ∧
    (aAct = true → bAct = false →
      (cseEliminable O (.basic ai ae ao (.globalPtr aAct))
        (.basic pj pe po (.globalPtr bAct))).1 = false) := by
  constructor
  · simp only [cseEliminable, Bool.and_eq_true, Bool.or_eq_true, beq_iff_eq]
  · intro ha hb
    subst ha; subst hb
    simp [cseEliminable]

/-- Witness for `globalptr_equivalence_iff` at a concrete input: an
activating new pointer is not matched against a non-activating candidate. -/
theorem globalptr_equivalence_iff_witness :
    (cseEliminable ⟨fun _ _ => true, fun _ _ => true, fun _ _ => true⟩
      (.basic 1 true [] (.globalPtr true))
      (.basic 2 true [] (.globalPtr false))).1 = false :=
  (globalptr_equivalence_iff ⟨fun _ _ => true, fun _ _ => true, fun _ _ => true⟩
    1 true [] true 2 true [] false).2 rfl rfl

/-- Claim C4: for two `LoopUniqueStmt`s, if the value-identity oracle
reports their inputs equal the match succeeds and the surviving `b`'s
"covers" set becomes the union of both; otherwise the match fails and
neither statement is changed. -/
theorem loopunique_merge (O : Oracles) (ai : Nat) (ae : Bool) (ao : List Nat)
    (aIn : Nat) (aCov : Finset Nat) (pj : Nat) (pe : Bool) (po : List Nat)
    (bIn : Nat) (bCov : Finset Nat) :
    cseEliminable O (.basic ai ae ao (.loopUnique aIn aCov))
        (.basic pj pe po (.loopUnique bIn bCov)) =
      if O.sameValue aIn bIn then
        (true, .basic pj pe po (.loopUnique bIn (bCov ∪ aCov)))
      else (false, .basic pj pe po (.loopUnique bIn bCov)) := by
  simp only [cseEliminable]

/-- Claim C2: `markUndone` removes from the done-set exactly the instance
ids of statements (container statements included, wherever they are nested)
whose operand list contains the changed operand `x`, and nothing else; in
particular it never adds an id. -/
theorem markUndone_exact (root : IRNode) (visited : Finset Nat) (x a : Nat) :
    a ∈ markUndone visited x root ↔
      a ∈ visited ∧ hasStmtWithOp root a x = false := by
  induction root generalizing visited with
  | noneB => simp [markUndone, hasStmtWithOp]
  | someB b ih => simpa [markUndone, hasStmtWithOp] using ih visited
  | nilB => simp [markUndone, hasStmtWithOp]
  | consB h t ihh iht =>
      simp only [markUndone, hasStmtWithOp, Bool.or_eq_false_iff]
      rw [iht, ihh]
      tauto
  | basic i e o k =>
      by_cases hx : x ∈ o
      · simp [markUndone, hasStmtWithOp, hx, Finset.mem_erase]
        tauto
      · simp [markUndone, hasStmtWithOp, hx]
  | ifS i o tb fb ihtb ihfb =>
      simp only [markUndone, hasStmtWithOp, Bool.or_eq_false_iff]
      rw [ihfb, ihtb]
      by_cases hx : x ∈ o
      · simp [hx, Finset.mem_erase]
        tauto
      · simp [hx]
        tauto

/-- A deferred structural edit of the `DelayedIRModifier`: erase a statement,
or insert a statement immediately before/after a target statement. -/
inductive EditOp where
  | eraseOp (victim : Nat)
  | insBefore (target : Nat) (payload : IRNode)
  | insAfter (target : Nat) (payload : IRNode)
deriving DecidableEq

/-- State of one `WholeKernelCSE` traversal: the live tree, the done-set
(`visited`), the visibility index (`visible_stmts`; head of the list is the
innermost scope, a scope keeps its registrations in insertion order) and the
pending-edit queue of the `DelayedIRModifier`. -/
structure WalkSt where
  root : IRNode
  visited : Finset Nat
  scopes : List (List (KindKey × Nat))
  queue : List EditOp
deriving DecidableEq

/-- `visible_stmts.emplace_back()`: open a fresh innermost scope. -/
def pushScope (st : WalkSt) : WalkSt :=
  { st with scopes := [] :: st.scopes }

/-- `visible_stmts.pop_back()`: close the innermost scope. -/
def popScope (st : WalkSt) : WalkSt :=
  { st with scopes := st.scopes.tail }

/-- `visible_stmts.back()[type_index].insert(stmt)`: register a statement in
the innermost scope under its dynamic-type key. -/
def registerVis (st : WalkSt) (k : KindKey) (i : Nat) : WalkSt :=
  { st with
    scopes :=
      match st.scopes with
      | [] => []
      | s :: rest => (s ++ [(k, i)]) :: rest }

/-- Intrinsic CSE-eligibility of a statement
(`stmt->common_statement_eliminable()`, modelled from the spec as a per-kind
boolean stored on the statement). -/
def stmtElig : IRNode → Bool
  | .basic _ e _ _ => e
  | _ => false

/-- Dynamic-type key of a statement node (only `basic` statements reach the
generic visitor). -/
def stmtKey : IRNode → KindKey
  | .basic _ _ _ k => kindKeyOf k
  | _ => .genK 0

/-- Scan one scope's registrations (in order) for the first candidate of the
right dynamic type that `common_statement_eliminable` accepts; the candidate
pointer is dereferenced against the live tree.  Returns the candidate's id
and its (possibly covers-merged) updated content. -/
def scanEntries (O : Oracles) (root s : IRNode) (k : KindKey) :
    List (KindKey × Nat) → Option (Nat × IRNode)
  | [] => none
  | (k', cid) :: rest =>
      if k' = k then
        match findStmt root cid with
        | some c =>
            let r := cseEliminable O s c
            if r.1 then some (cid, r.2) else scanEntries O root s k rest
        | none => scanEntries O root s k rest
      else scanEntries O root s k rest

/-- `for (auto &scope : visible_stmts)`: scan every open scope, outermost
first, for a matching candidate. -/
def scanScopes (O : Oracles) (root s : IRNode) (k : KindKey) :
    List (List (KindKey × Nat)) → Option (Nat × IRNode)
  | [] => none
  | sc :: rest =>
      match scanEntries O root s k sc with
      | some r => some r
      | none => scanScopes O root s k rest

/-- Rewrite the operand lists of a queued insertion payload (a statement
owned by the modifier is still reachable through usage lists, so
`replace_usages_with` updates it too). -/
def payloadRewrite (old new : Nat) : EditOp → EditOp
  | .insBefore t p => .insBefore t (replaceUsages p old new)
  | .insAfter t p => .insAfter t (replaceUsages p old new)
  | op => op

/-- `WholeKernelCSE::visit(Stmt*)`, the generic visitor, acting on the
statement with instance id `sid` (dereferenced against the live tree).
Ineligible statements are skipped; a done statement is only re-registered;
otherwise the open scopes are scanned and on the first match the covers
side effect is applied to the surviving candidate, `MarkUndone` sweeps the
whole tree seeded with this statement, all usages of this statement are
rerouted to the candidate and its erasure is queued; with no match the
statement is registered and marked done. -/
def visitGenericStep (O : Oracles) (st : WalkSt) (sid : Nat) : WalkSt :=
  match findStmt st.root sid with
  | none => st
  | some s =>
      if stmtElig s = false then st
      else if sid ∈ st.visited then registerVis st (stmtKey s) sid
      else
        match scanScopes O st.root s (stmtKey s) st.scopes.reverse with
        | some (pid, prevUpd) =>
            let root1 := (setStmt st.root pid prevUpd).1
            let vis1 := markUndone st.visited sid root1
            let root2 := replaceUsages root1 sid pid
            { root := root2, visited := vis1, scopes := st.scopes,
              queue := st.queue.map (payloadRewrite sid pid) ++ [.eraseOp sid] }
        | none =>
            let st1 := registerVis st (stmtKey s) sid
            { st1 with visited := insert sid st1.visited }

/-- First statement of a block chain (`statements[0]`). -/
def chainHead : IRNode → Option IRNode
  | .consB h _ => some h
  | _ => none

/-- Block chain without its first statement (`extract(0)` / `erase(0)`). -/
def chainTail : IRNode → IRNode
  | .consB _ t => t
  | n => n

/-- Last statement of a block chain (`statements.back()`). -/
def chainLast : IRNode → Option IRNode
  | .consB h t =>
      match chainLast t with
      | some x => some x
      | none => some h
  | _ => none

/-- Block chain without its last statement (`extract(size-1)` /
`erase(size-1)`). -/
def chainDropLast : IRNode → IRNode
  | .consB _ .nilB => .nilB
  | .consB h t => .consB h (chainDropLast t)
  | n => n

/-- Is a block chain empty (`statements.empty()`)? -/
def chainIsNil : IRNode → Bool
  | .nilB => true
  | _ => false

/-- Instance id of a statement node, defaulted (block statements are always
`basic` or `ifS` nodes in a well-formed tree). -/
def nodeId (n : IRNode) : Nat := (stmtId n).getD 0

/-- Result of the normalization and hoist phase of
`WholeKernelCSE::visit(IfStmt*)` on one if-statement node: the updated
if-statement, the edits queued on the modifier, and whether the leading /
trailing hoists fired. -/
structure HoistOut where
  node : IRNode
  edits : List EditOp
  led : Bool
  trailed : Bool
deriving DecidableEq

/-- Empty-branch normalization of `visit(IfStmt*)`: a present-but-empty
branch block is dropped (`set_true_statements(nullptr)` /
`set_false_statements(nullptr)`). -/
def normBranch : IRNode → IRNode
  | .someB .nilB => .noneB
  | x => x

/-- Normalization and hoist phase of `WholeKernelCSE::visit(IfStmt*)`:
first a present-but-empty branch is dropped (set to absent); then, if both
branches are present, structurally identical first statements are hoisted
(extract the true branch's first statement, reroute the false branch's
usages of its first statement to the extracted one, queue its insertion
before the if-statement, erase the false branch's first statement), and the
same for structurally identical last statements with insertion after the
if-statement, the trailing comparison being guarded by both branches still
being non-empty. -/
def hoistIfNode (O : Oracles) : IRNode → HoistOut
  | .ifS i o tb fb =>
      let tb1 := normBranch tb
      let fb1 := normBranch fb
      match tb1, fb1 with
      | .someB tc, .someB fc =>
          (match chainHead tc, chainHead fc with
           | some th, some fh =>
               if O.sameStmts th fh then
                 let tc1 := chainTail tc
                 let fc1 :=
                   chainTail (mapAllOps (rewriteOps (nodeId fh) (nodeId th)) fc)
                 if chainIsNil tc1 || chainIsNil fc1 then
                   ⟨.ifS i o (.someB tc1) (.someB fc1), [.insBefore i th],
                     true, false⟩
                 else
                   match chainLast tc1, chainLast fc1 with
                   | some tl, some fl =>
                       if O.sameStmts tl fl then
                         ⟨.ifS i o (.someB (chainDropLast tc1))
                             (.someB (chainDropLast
                               (mapAllOps (rewriteOps (nodeId fl) (nodeId tl))
                                 fc1))),
                           [.insBefore i th, .insAfter i tl], true, true⟩
                       else
                         ⟨.ifS i o (.someB tc1) (.someB fc1),
                           [.insBefore i th], true, false⟩
                   | _, _ =>
                       ⟨.ifS i o (.someB tc1) (.someB fc1), [.insBefore i th],
                         true, false⟩
               else
                 match chainLast tc, chainLast fc with
                 | some tl, some fl =>
                     if O.sameStmts tl fl then
                       ⟨.ifS i o (.someB (chainDropLast tc))
                           (.someB (chainDropLast
                             (mapAllOps (rewriteOps (nodeId fl) (nodeId tl))
                               fc))),
                         [.insAfter i tl], false, true⟩
                     else ⟨.ifS i o (.someB tc) (.someB fc), [], false, false⟩
                 | _, _ => ⟨.ifS i o (.someB tc) (.someB fc), [], false, false⟩
           | _, _ => ⟨.ifS i o (.someB tc) (.someB fc), [], false, false⟩)
      | tb2, fb2 => ⟨.ifS i o tb2 fb2, [], false, false⟩
  | m => ⟨m, [], false, false⟩

/-- Normalization and hoist phase acting on the walk state: the if-statement
with id `ifid` is dereferenced against the live tree, transformed in place,
and the hoist edits are appended to the modifier's queue. -/
def ifHoistStep (O : Oracles) (st : WalkSt) (ifid : Nat) : WalkSt × Bool × Bool :=
  match findStmt st.root ifid with
  | some (.ifS i o tb fb) =>
      let r := hoistIfNode O (.ifS i o tb fb)
      ({ st with root := (setStmt st.root ifid r.node).1,
                 queue := st.queue ++ r.edits }, r.led, r.trailed)
  | _ => (st, false, false)

/-- Is the true branch of the if-statement with id `i` currently present
(`if_stmt->true_statements` non-null)? -/
def curTBpresent (root : IRNode) (i : Nat) : Bool :=
  match findStmt root i with
  | some (.ifS _ _ (.someB _) _) => true
  | _ => false

/-- Is the false branch of the if-statement with id `i` currently present
(`if_stmt->false_statements` non-null)? -/
def curFBpresent (root : IRNode) (i : Nat) : Bool :=
  match findStmt root i with
  | some (.ifS _ _ _ (.someB _)) => true
  | _ => false

mutual

/-- One step of the tree walker on a statement.  A `basic` statement goes
through the generic visitor; an if-statement runs the normalization/hoist
phase and then recurses into whichever branches are still present, each
branch visited as a block (open scope, visit the statements in order, close
scope).  The snapshot shape of a branch drives the iteration order while
every statement's content is dereferenced against the live tree; a branch
whose first (resp. last) statement was hoisted is iterated from its second
statement (resp. stops before its last one). -/
def walkOne (O : Oracles) (st : WalkSt) : IRNode → WalkSt
  | .basic i _ _ _ => visitGenericStep O st i
  | .ifS i _ tbS fbS =>
      let h := ifHoistStep O st i
      let st1 := h.1
      let st2 := if curTBpresent st1.root i then walkBr O st1 h.2.1 h.2.2 tbS
                 else st1
      if curFBpresent st2.root i then walkBr O st2 h.2.1 h.2.2 fbS else st2
  | _ => st

/-- Visit one (present) branch block: open a scope, visit the snapshot's
statements in order — skipping the first one when the leading hoist fired
and the last one when the trailing hoist fired — and close the scope. -/
def walkBr (O : Oracles) (st : WalkSt) (skipFirst skipLast : Bool) :
    IRNode → WalkSt
  | .someB tc => popScope (walkSeqG O (pushScope st) skipFirst skipLast tc)
  | _ => st

/-- Visit the statements of a block chain in order; with the first flag set
the first statement is skipped, with the second flag set the last statement
is skipped. -/
def walkSeqG (O : Oracles) (st : WalkSt) : Bool → Bool → IRNode → WalkSt
  | true, sl, .consB _ t => walkSeqG O st false sl t
  | false, true, .consB _ .nilB => st
  | false, sl, .consB h t => walkSeqG O (walkOne O st h) false sl t
  | _, _, _ => st

end

/-- `WholeKernelCSE::visit(Block*)`: open a scope, visit the statements in
order, close the scope. -/
def walkBlock (O : Oracles) (st : WalkSt) (b : IRNode) : WalkSt :=
  popScope (walkSeqG O (pushScope st) false false b)

/-- The member state of one `WholeKernelCSE` object that survives between
traversals of the fixed-point loop: the done-set and the visibility index
(the modifier's queue is consumed by `modify_ir`). -/
structure ElimSt where
  visited : Finset Nat
  scopes : List (List (KindKey × Nat))
deriving DecidableEq

/-- One full traversal (`node->accept(&eliminator)` with the root block):
the walker starts on the root block with an empty queue and the carried-over
member state. -/
def traverseOnce (O : Oracles) (es : ElimSt) (root : IRNode) : WalkSt :=
  walkBlock O { root := root, visited := es.visited, scopes := es.scopes,
                queue := [] } root

/-- Insert a payload immediately before the first (preorder) statement with
the given id, inside that statement's block.  Modelled from the spec: the
`DelayedIRModifier` inserts next to the target wherever it lives; instance
ids are unique in a well-formed IR, so the first occurrence is the target. -/
def insertBeforeFirst (target : Nat) (p : IRNode) : IRNode → IRNode × Bool
  | .someB b =>
      let r := insertBeforeFirst target p b
      (.someB r.1, r.2)
  | .consB h t =>
      if stmtId h = some target then (.consB p (.consB h t), true)
      else
        let r := insertBeforeFirst target p h
        if r.2 then (.consB r.1 t, true)
        else
          let q := insertBeforeFirst target p t
          (.consB h q.1, q.2)
  | .ifS j o tb fb =>
      let r := insertBeforeFirst target p tb
      if r.2 then (.ifS j o r.1 fb, true)
      else
        let q := insertBeforeFirst target p fb
        (.ifS j o tb q.1, q.2)
  | n => (n, false)

/-- Insert a payload immediately after the first (preorder) statement with
the given id, inside that statement's block. -/
def insertAfterFirst (target : Nat) (p : IRNode) : IRNode → IRNode × Bool
  | .someB b =>
      let r := insertAfterFirst target p b
      (.someB r.1, r.2)
  | .consB h t =>
      if stmtId h = some target then (.consB h (.consB p t), true)
      else
        let r := insertAfterFirst target p h
        if r.2 then (.consB r.1 t, true)
        else
          let q := insertAfterFirst target p t
          (.consB h q.1, q.2)
  | .ifS j o tb fb =>
      let r := insertAfterFirst target p tb
      if r.2 then (.ifS j o r.1 fb, true)
      else
        let q := insertAfterFirst target p fb
        (.ifS j o tb q.1, q.2)
  | n => (n, false)

/-- Erase the first (preorder) statement with the given id from its block. -/
def eraseFirst (victim : Nat) : IRNode → IRNode × Bool
  | .someB b =>
      let r := eraseFirst victim b
      (.someB r.1, r.2)
  | .consB h t =>
      if stmtId h = some victim then (t, true)
      else
        let r := eraseFirst victim h
        if r.2 then (.consB r.1 t, true)
        else
          let q := eraseFirst victim t
          (.consB h q.1, q.2)
  | .ifS j o tb fb =>
      let r := eraseFirst victim tb
      if r.2 then (.ifS j o r.1 fb, true)
      else
        let q := eraseFirst victim fb
        (.ifS j o tb q.1, q.2)
  | n => (n, false)

/-- Apply one deferred edit to the tree. -/
def applyOne (n : IRNode) : EditOp → IRNode
  | .eraseOp v => (eraseFirst v n).1
  | .insBefore t p => (insertBeforeFirst t p n).1
  | .insAfter t p => (insertAfterFirst t p n).1

/-- Modelled from the spec: `DelayedIRModifier::modify_ir` applies the
accumulated edits to the tree in queued order (the modifier itself lives
outside this file's source). -/
def applyQueue (q : List EditOp) (n : IRNode) : IRNode :=
  q.foldl applyOne n

/-- `WholeKernelCSE::run`: repeat full traversals, applying the queued edits
after each one, until a traversal queues nothing; the eliminator object (and
hence its done-set and visibility index) persists across the iterations.
The loop of the source is unbounded; here it carries fuel and returns `none`
if the fuel is exhausted, which the termination theorem rules out for the
fuel chosen in `run`.  The boolean reports whether any edit was applied. -/
def runAux (O : Oracles) : Nat → ElimSt → IRNode → Option (IRNode × Bool)
  | 0, _, _ => none
  | fuel + 1, es, root =>
      let st := traverseOnce O es root
      if st.queue = [] then some (st.root, false)
      else
        match runAux O fuel { visited := st.visited, scopes := st.scopes }
            (applyQueue st.queue st.root) with
        | none => none
        | some (t, _) => some (t, true)

/-- Entry point `whole_kernel_cse(root)`: a fresh eliminator (empty done-set
and visibility index) and enough fuel for every possible edit. -/
def run (O : Oracles) (root : IRNode) : Option (IRNode × Bool) :=
  runAux O (size root + 1) { visited := ∅, scopes := [] } root

/-- Modelled from the claim's words (for comparison only): a driver that
discards the done-set and the visibility index at the end of every
traversal, as claim C8 describes. -/
def runResetAux (O : Oracles) : Nat → IRNode → Option (IRNode × Bool)
  | 0, _ => none
  | fuel + 1, root =>
      let st := traverseOnce O { visited := ∅, scopes := [] } root
      if st.queue = [] then some (st.root, false)
      else
        match runResetAux O fuel (applyQueue st.queue st.root) with
        | none => none
        | some (t, _) => some (t, true)

/-- Driver variant that resets the per-traversal state, following claim C8's
words. -/
def runReset (O : Oracles) (root : IRNode) : Option (IRNode × Bool) :=
  runResetAux O (size root + 1) root

/-- Structural equality of statements ignoring instance ids: a concrete
stand-in for the `same_statements` oracle, used on concrete inputs. -/
def eqNoId : IRNode → IRNode → Bool
  | .noneB, .noneB => true
  | .someB a, .someB b => eqNoId a b
  | .nilB, .nilB => true
  | .consB a b, .consB c d => eqNoId a c && eqNoId b d
  | .basic _ e o k, .basic _ e' o' k' =>
      e == e' && decide (o = o') && decide (k = k')
  | .ifS _ o tb fb, .ifS _ o' tb' fb' =>
      decide (o = o') && eqNoId tb tb' && eqNoId fb fb'
  | _, _ => false

/-- Concrete oracle bundle for concrete inputs: structural no-id equality
for `same_statements`, id equality for `same_value`, structural no-id
equality for `definitely_same_address`. -/
def structOracle : Oracles :=
  ⟨fun a b => eqNoId a b, fun x y => decide (x = y), fun a b => eqNoId a b⟩

/-! Unfolding lemmas for the mutual walker functions (their compiled
recursor form does not yield equational lemmas automatically; each of these
is definitional). -/

theorem walkOne_basic (O : Oracles) (st : WalkSt) (i : Nat) (e : Bool)
    (o : List Nat) (k : StmtKind) :
    walkOne O st (.basic i e o k) = visitGenericStep O st i := rfl

theorem walkOne_ifS (O : Oracles) (st : WalkSt) (i : Nat) (o : List Nat)
    (tbS fbS : IRNode) :
    walkOne O st (.ifS i o tbS fbS) =
      (let h := ifHoistStep O st i
       let st1 := h.1
       let st2 := if curTBpresent st1.root i then walkBr O st1 h.2.1 h.2.2 tbS
                  else st1
       if curFBpresent st2.root i then walkBr O st2 h.2.1 h.2.2 fbS else st2) :=
  rfl

theorem walkOne_noneB (O : Oracles) (st : WalkSt) :
    walkOne O st .noneB = st := rfl

theorem walkOne_someB (O : Oracles) (st : WalkSt) (b : IRNode) :
    walkOne O st (.someB b) = st := rfl

theorem walkOne_nilB (O : Oracles) (st : WalkSt) :
    walkOne O st .nilB = st := rfl

theorem walkOne_consB (O : Oracles) (st : WalkSt) (h t : IRNode) :
    walkOne O st (.consB h t) = st := rfl

theorem walkBr_someB (O : Oracles) (st : WalkSt) (a b : Bool) (tc : IRNode) :
    walkBr O st a b (.someB tc) =
      popScope (walkSeqG O (pushScope st) a b tc) := rfl

theorem walkBr_noneB (O : Oracles) (st : WalkSt) (a b : Bool) :
    walkBr O st a b .noneB = st := rfl

theorem walkBr_nilB (O : Oracles) (st : WalkSt) (a b : Bool) :
    walkBr O st a b .nilB = st := rfl

theorem walkBr_consB (O : Oracles) (st : WalkSt) (a b : Bool) (h t : IRNode) :
    walkBr O st a b (.consB h t) = st := rfl

theorem walkBr_basic (O : Oracles) (st : WalkSt) (a b : Bool) (i : Nat)
    (e : Bool) (o : List Nat) (k : StmtKind) :
    walkBr O st a b (.basic i e o k) = st := rfl

theorem walkBr_ifS (O : Oracles) (st : WalkSt) (a b : Bool) (i : Nat)
    (o : List Nat) (tb fb : IRNode) :
    walkBr O st a b (.ifS i o tb fb) = st := rfl

theorem walkSeqG_skip (O : Oracles) (st : WalkSt) (sl : Bool) (h t : IRNode) :
    walkSeqG O st true sl (.consB h t) = walkSeqG O st false sl t := rfl

theorem walkSeqG_last (O : Oracles) (st : WalkSt) (h : IRNode) :
    walkSeqG O st false true (.consB h .nilB) = st := rfl

theorem walkSeqG_cons_lastT (O : Oracles) (st : WalkSt) (h h2 t : IRNode) :
    walkSeqG O st false true (.consB h (.consB h2 t)) =
      walkSeqG O (walkOne O st h) false true (.consB h2 t) := rfl

theorem walkSeqG_cons (O : Oracles) (st : WalkSt) (h t : IRNode) :
    walkSeqG O st false false (.consB h t) =
      walkSeqG O (walkOne O st h) false false t := rfl

theorem walkSeqG_nil (O : Oracles) (st : WalkSt) (a b : Bool) :
    walkSeqG O st a b .nilB = st := by
  cases a <;> cases b <;> rfl

theorem walkSeqG_noneB (O : Oracles) (st : WalkSt) (a b : Bool) :
    walkSeqG O st a b .noneB = st := by
  cases a <;> cases b <;> rfl

theorem walkSeqG_someB (O : Oracles) (st : WalkSt) (a b : Bool) (x : IRNode) :
    walkSeqG O st a b (.someB x) = st := by
  cases a <;> cases b <;> rfl

theorem walkSeqG_basic (O : Oracles) (st : WalkSt) (a b : Bool) (i : Nat)
    (e : Bool) (o : List Nat) (k : StmtKind) :
    walkSeqG O st a b (.basic i e o k) = st := by
  cases a <;> cases b <;> rfl

theorem walkSeqG_ifS (O : Oracles) (st : WalkSt) (a b : Bool) (i : Nat)
    (o : List Nat) (tb fb : IRNode) :
    walkSeqG O st a b (.ifS i o tb fb) = st := by
  cases a <;> cases b <;> rfl

/-- One unrolling of the fixed-point loop of `run`. -/
theorem runAux_succ (O : Oracles) (f : Nat) (es : ElimSt) (root : IRNode) :
    runAux O (f + 1) es root =
      (if (traverseOnce O es root).queue = [] then
        some ((traverseOnce O es root).root, false)
      else
        match runAux O f ⟨(traverseOnce O es root).visited,
            (traverseOnce O es root).scopes⟩
            (applyQueue (traverseOnce O es root).queue
              (traverseOnce O es root).root) with
        | none => none
        | some (t, _) => some (t, true)) := rfl

/-! Concrete statements and trees used by the concrete theorems below. -/

/-- An eligible statement of an opaque kind, with no operands. -/
def eStmt (i tag : Nat) : IRNode := .basic i true [] (.generic tag)

/-- An ineligible statement of an opaque kind, with no operands (a statement
with order-sensitive side effects). -/
def nStmt (i tag : Nat) : IRNode := .basic i false [] (.generic tag)

/-- Claim C10: for an if-statement whose branches each hold exactly one
statement and whose two statements are structurally identical, only the
leading hoist fires; the trailing comparison is skipped because both
branches are re-checked for non-emptiness, so the shared statement is
queued for insertion exactly once, before the if-statement, and never a
second time after it. -/
theorem singleton_branches_single_hoist (O : Oracles) (i : Nat)
    (o : List Nat) (a b : IRNode) (h : O.sameStmts a b = true) :
    hoistIfNode O (.ifS i o (.someB (.consB a .nilB)) (.someB (.consB b .nilB))) =
      ⟨.ifS i o (.someB .nilB) (.someB .nilB), [.insBefore i a], true, false⟩ := by
  simp [hoistIfNode, normBranch, chainHead, chainTail, chainIsNil, h,
    mapAllOps]

/-- Witness for `singleton_branches_single_hoist` at a concrete input. -/
theorem singleton_branches_single_hoist_witness :
    hoistIfNode structOracle
        (.ifS 1 [] (.someB (.consB (eStmt 2 0) .nilB))
          (.someB (.consB (eStmt 3 0) .nilB))) =
      ⟨.ifS 1 [] (.someB .nilB) (.someB .nilB), [.insBefore 1 (eStmt 2 0)],
        true, false⟩ :=
  singleton_branches_single_hoist structOracle 1 [] (eStmt 2 0) (eStmt 3 0)
    (by decide)

/-- Claim C9: a false branch emptied by branch hoisting stays behaviorally
absent.  First conjunct: hoisting the shared leading statement of a
singleton false branch leaves the branch present but empty, with no further
trailing comparison.  Second conjunct: visiting an empty branch block is the
identity on the walker state, so recursing into the present-but-empty
branch is indistinguishable from skipping an absent one (and, the walker
being a total function, it cannot crash).  Third conjunct: the next visit of
the if-statement normalizes the present-but-empty branch to absent. -/
theorem emptied_branch_treated_as_absent (O : Oracles) (st : WalkSt)
    (i : Nat) (o : List Nat) (a b tcrest : IRNode)
    (h : O.sameStmts a b = true) :
    (hoistIfNode O (.ifS i o (.someB (.consB a tcrest))
        (.someB (.consB b .nilB))) =
      ⟨.ifS i o (.someB tcrest) (.someB .nilB), [.insBefore i a], true,
        false⟩) ∧
    (walkBlock O st .nilB = st) ∧
    (∀ tb : IRNode, hoistIfNode O (.ifS i o tb (.someB .nilB)) =
      ⟨.ifS i o (normBranch tb) .noneB, [], false, false⟩) := by
  refine ⟨?_, rfl, ?_⟩
  · simp [hoistIfNode, normBranch, chainHead, chainTail, chainIsNil, h,
      mapAllOps]
  · intro tb
    cases tb <;> simp [hoistIfNode, normBranch]

/-- Witness for `emptied_branch_treated_as_absent` at a concrete input. -/
theorem emptied_branch_treated_as_absent_witness :
    (hoistIfNode structOracle (.ifS 1 [] (.someB (.consB (eStmt 2 0) .nilB))
        (.someB (.consB (eStmt 3 0) .nilB))) =
      ⟨.ifS 1 [] (.someB .nilB) (.someB .nilB), [.insBefore 1 (eStmt 2 0)],
        true, false⟩) ∧
    (walkBlock structOracle ⟨.nilB, ∅, [], []⟩ .nilB = ⟨.nilB, ∅, [], []⟩) ∧
    (∀ tb : IRNode, hoistIfNode structOracle (.ifS 1 [] tb (.someB .nilB)) =
      ⟨.ifS 1 [] (normBranch tb) .noneB, [], false, false⟩) :=
  emptied_branch_treated_as_absent structOracle ⟨.nilB, ∅, [], []⟩ 1 []
    (eStmt 2 0) (eStmt 3 0) .nilB (by decide)

/-- If-statement whose branch blocks are `[s1, s2]` and `[s1', s3]` with
`s1` structurally identical to `s1'` and also `s2` structurally identical
to `s3`. -/
def trailTree : IRNode :=
  .consB (.ifS 1 []
    (.someB (.consB (eStmt 2 0) (.consB (eStmt 3 1) .nilB)))
    (.someB (.consB (eStmt 4 0) (.consB (eStmt 5 1) .nilB)))) .nilB

/-- What the pass actually produces on `trailTree`: both hoists fire, the
branches end up absent, and the shared trailing statement sits after the
if-statement. -/
def trailTreeActual : IRNode :=
  .consB (eStmt 2 0) (.consB (.ifS 1 [] .noneB .noneB)
    (.consB (eStmt 3 1) .nilB))

/-- What claim C5 predicts on `trailTree`: `s1` hoisted before the
if-statement, true branch `[s2]`, false branch `[s3]`. -/
def trailTreeClaim : IRNode :=
  .consB (eStmt 2 0) (.consB (.ifS 1 []
    (.someB (.consB (eStmt 3 1) .nilB))
    (.someB (.consB (eStmt 5 1) .nilB))) .nilB)

/-- Counterexample to claim C5 as stated: when the trailing statements `s2`
and `s3` are also structurally identical, the trailing hoist fires as well,
so the branches do not end up as `[s2]` and `[s3]`. -/
theorem branch_hoist_boundary_cex :
    run structOracle trailTree = some (trailTreeActual, true) ∧
      trailTreeActual ≠ trailTreeClaim := by
  exact ⟨by decide, by decide⟩

/-- First traversal on the claim C5 family: the leading statements are
hoisted (insertion queued before the if-statement, false-branch usages
rerouted), the trailing statements — compared after that reroute — do not
match, and the branch statements are registered and marked done when
eligible. -/
theorem hoist_boundary_trav1 (O : Oracles)
    (e1 e2 e3 e4 : Bool) (o1 o2 o3 o4 oI : List Nat)
    (k1 k2 k3 k4 : StmtKind)
    (h1 : O.sameStmts (.basic 11 e1 o1 k1) (.basic 13 e3 o3 k3) = true)
    (h2 : O.sameStmts (.basic 12 e2 o2 k2)
            (.basic 14 e4 (rewriteOps 13 11 o4) k4) = false) :
    traverseOnce O ⟨∅, []⟩ (.consB (.ifS 1 oI
        (.someB (.consB (.basic 11 e1 o1 k1) (.consB (.basic 12 e2 o2 k2) .nilB)))
        (.someB (.consB (.basic 13 e3 o3 k3) (.consB (.basic 14 e4 o4 k4) .nilB))))
      .nilB) =
      ⟨.consB (.ifS 1 oI
          (.someB (.consB (.basic 12 e2 o2 k2) .nilB))
          (.someB (.consB (.basic 14 e4 (rewriteOps 13 11 o4) k4) .nilB))) .nilB,
       (if e4 then insert 14 (if e2 then insert 12 (∅ : Finset Nat) else ∅)
        else (if e2 then insert 12 (∅ : Finset Nat) else ∅)),
       [],
       [.insBefore 1 (.basic 11 e1 o1 k1)]⟩ := by
  cases e2 <;> cases e4 <;>
    simp [traverseOnce, walkBlock,
      walkOne_basic, walkOne_ifS, walkBr_someB, walkBr_noneB, walkSeqG_skip,
      walkSeqG_last, walkSeqG_cons_lastT, walkSeqG_cons, walkSeqG_nil,
      visitGenericStep, ifHoistStep, hoistIfNode, normBranch, chainHead,
      chainTail, chainLast, chainIsNil, nodeId, stmtId, findStmt, setStmt,
      mapAllOps, replaceUsages,
      pushScope, popScope, registerVis, scanScopes,
      scanEntries, stmtElig, stmtKey, markUndone, h1, h2, cseEliminable,
      curTBpresent, curFBpresent]

/-- Second traversal on the claim C5 family: on the fixed tree, statements
marked done in the first traversal are only re-registered (never matched
again), the hoisted statement finds no candidate, and no edit is queued. -/
theorem hoist_boundary_trav2 (O : Oracles) (e1 e2 e4 : Bool)
    (o1 o2 o4 oI : List Nat) (k1 k2 k4 : StmtKind) (vis : Finset Nat)
    (h2 : O.sameStmts (.basic 12 e2 o2 k2)
            (.basic 14 e4 (rewriteOps 13 11 o4) k4) = false)
    (h11 : 11 ∉ vis)
    (h12 : e2 = true → 12 ∈ vis)
    (h14 : e4 = true → 14 ∈ vis) :
    traverseOnce O ⟨vis, []⟩ (.consB (.basic 11 e1 o1 k1)
      (.consB (.ifS 1 oI
          (.someB (.consB (.basic 12 e2 o2 k2) .nilB))
          (.someB (.consB (.basic 14 e4 (rewriteOps 13 11 o4) k4) .nilB)))
        .nilB)) =
      ⟨.consB (.basic 11 e1 o1 k1)
        (.consB (.ifS 1 oI
            (.someB (.consB (.basic 12 e2 o2 k2) .nilB))
            (.someB (.consB (.basic 14 e4 (rewriteOps 13 11 o4) k4) .nilB)))
          .nilB),
       (if e1 then insert 11 vis else vis), [], []⟩ := by
  cases e1 <;> cases e2 <;> cases e4 <;>
    simp [traverseOnce, walkBlock,
      walkOne_basic, walkOne_ifS, walkBr_someB, walkBr_noneB, walkSeqG_skip,
      walkSeqG_last, walkSeqG_cons_lastT, walkSeqG_cons, walkSeqG_nil,
      visitGenericStep, ifHoistStep, hoistIfNode, normBranch, chainHead,
      chainTail, chainLast, chainIsNil, nodeId, stmtId, findStmt, setStmt,
      mapAllOps, replaceUsages,
      pushScope, popScope, registerVis, scanScopes,
      scanEntries, stmtElig, stmtKey, markUndone, h2, cseEliminable,
      curTBpresent, curFBpresent, h11, h12, h14]

set_option maxHeartbeats 1000000 in
/-- Claim C5, amended: for every if-statement with true branch `[s1, s2]`
and false branch `[s1', s3]` (arbitrary eligibility flags, operand lists and
kinds, at the fixed distinct instance ids 11, 12, 13, 14) where the oracle
reports `s1` and `s1'` structurally identical and reports `s2` and `s3`
(the latter with its usages of `s1'` rerouted to `s1`) not identical, the
pass terminates with `s1` exactly once, immediately before the
if-statement, true branch `[s2]`, false branch `[s3]` with its usages of
`s1'` rerouted to the hoisted `s1`. -/
theorem branch_hoist_boundary_amended (O : Oracles)
    (e1 e2 e3 e4 : Bool) (o1 o2 o3 o4 oI : List Nat)
    (k1 k2 k3 k4 : StmtKind)
    (h1 : O.sameStmts (.basic 11 e1 o1 k1) (.basic 13 e3 o3 k3) = true)
    (h2 : O.sameStmts (.basic 12 e2 o2 k2)
            (.basic 14 e4 (rewriteOps 13 11 o4) k4) = false) :
    run O (.consB (.ifS 1 oI
        (.someB (.consB (.basic 11 e1 o1 k1) (.consB (.basic 12 e2 o2 k2) .nilB)))
        (.someB (.consB (.basic 13 e3 o3 k3) (.consB (.basic 14 e4 o4 k4) .nilB))))
      .nilB) =
      some (.consB (.basic 11 e1 o1 k1)
        (.consB (.ifS 1 oI
          (.someB (.consB (.basic 12 e2 o2 k2) .nilB))
          (.someB (.consB (.basic 14 e4 (rewriteOps 13 11 o4) k4) .nilB)))
        .nilB), true) := by
  have tr1 := hoist_boundary_trav1 O e1 e2 e3 e4 o1 o2 o3 o4 oI k1 k2 k3 k4 h1 h2
  have tr2 := hoist_boundary_trav2 O e1 e2 e4 o1 o2 o4 oI k1 k2 k4
    (if e4 then insert 14 (if e2 then insert 12 (∅ : Finset Nat) else ∅)
     else (if e2 then insert 12 (∅ : Finset Nat) else ∅)) h2
    (by cases e2 <;> cases e4 <;> simp)
    (by cases e2 <;> cases e4 <;> simp)
    (by cases e2 <;> cases e4 <;> simp)
  have happ : applyQueue [EditOp.insBefore 1 (.basic 11 e1 o1 k1)]
        (.consB (.ifS 1 oI
          (.someB (.consB (.basic 12 e2 o2 k2) .nilB))
          (.someB (.consB (.basic 14 e4 (rewriteOps 13 11 o4) k4) .nilB))) .nilB) =
      (.consB (.basic 11 e1 o1 k1)
        (.consB (.ifS 1 oI
          (.someB (.consB (.basic 12 e2 o2 k2) .nilB))
          (.someB (.consB (.basic 14 e4 (rewriteOps 13 11 o4) k4) .nilB)))
        .nilB)) := by
    simp [applyQueue, applyOne, insertBeforeFirst, stmtId]
  show runAux O (size _ + 1) ⟨∅, []⟩ _ = _
  rw [show (size (IRNode.consB (.ifS 1 oI
        (.someB (.consB (.basic 11 e1 o1 k1) (.consB (.basic 12 e2 o2 k2) .nilB)))
        (.someB (.consB (.basic 13 e3 o3 k3) (.consB (.basic 14 e4 o4 k4) .nilB))))
      .nilB)) = 4 + 1 from rfl]
  rw [runAux_succ, tr1]
  rw [if_neg (by simp)]
  dsimp only
  rw [happ, runAux_succ, tr2]
  rw [if_pos rfl]

/-- Witness for `branch_hoist_boundary_amended` at a concrete input. -/
theorem branch_hoist_boundary_amended_witness :
    run structOracle (.consB (.ifS 1 []
        (.someB (.consB (.basic 11 true [] (.generic 0))
          (.consB (.basic 12 true [] (.generic 1)) .nilB)))
        (.someB (.consB (.basic 13 true [] (.generic 0))
          (.consB (.basic 14 true [] (.generic 2)) .nilB))))
      .nilB) =
      some (.consB (.basic 11 true [] (.generic 0))
        (.consB (.ifS 1 []
          (.someB (.consB (.basic 12 true [] (.generic 1)) .nilB))
          (.someB (.consB (.basic 14 true (rewriteOps 13 11 [])
            (.generic 2)) .nilB)))
        .nilB), true) :=
  branch_hoist_boundary_amended structOracle true true true true [] [] [] []
    [] (.generic 0) (.generic 1) (.generic 0) (.generic 2) (by decide)
    (by decide)

/-- Root block holding one if-statement whose branch blocks are `[a1, x]`
and `[a2, y]`, with `a1`, `a2` and `x` structurally identical and eligible:
the leading hoist extracts `a1`, and `x` stays marked done ever after. -/
def doneTreeA : IRNode :=
  .consB (.ifS 9 []
    (.someB (.consB (eStmt 1 0) (.consB (eStmt 3 0) .nilB)))
    (.someB (.consB (eStmt 2 0) (.consB (eStmt 4 1) .nilB)))) .nilB

/-- `doneTreeA` after one `run` invocation: `a1` is hoisted before the
if-statement, and `x` — structurally identical to `a1` — survives inside the
true branch, because it was marked done before `a1` was inserted. -/
def doneTreeA1 : IRNode :=
  .consB (eStmt 1 0) (.consB (.ifS 9 []
    (.someB (.consB (eStmt 3 0) .nilB))
    (.someB (.consB (eStmt 4 1) .nilB))) .nilB)

/-- `doneTreeA1` after another `run` invocation: the fresh done-set lets the
generic matcher eliminate `x` against the hoisted `a1`, and the emptied true
branch is normalized to absent. -/
def doneTreeA2 : IRNode :=
  .consB (eStmt 1 0) (.consB (.ifS 9 [] .noneB
    (.someB (.consB (eStmt 4 1) .nilB))) .nilB)

/-- Counterexample to claim C6 as stated: the second `run` call returns true
and changes the tree again (running the pass twice is not the same as
running it once). -/
theorem idempotence_cex :
    run structOracle doneTreeA = some (doneTreeA1, true) ∧
      run structOracle doneTreeA1 = some (doneTreeA2, true) ∧
      doneTreeA2 ≠ doneTreeA1 :=
  ⟨by decide, by decide, by decide⟩

/-- Root block holding one if-statement whose branch blocks hold one
ineligible statement each, the two statements structurally identical. -/
def ineligTree : IRNode :=
  .consB (.ifS 5 [] (.someB (.consB (nStmt 1 0) .nilB))
    (.someB (.consB (nStmt 2 0) .nilB))) .nilB

/-- Counterexample to claim C7 as stated: a traversal of `ineligTree` queues
an edit (the hoist of the shared ineligible statement), yet the count of
eligible, not-yet-eliminated statements does not strictly decrease (it stays
zero), so that count is not the measure that justifies termination. -/
theorem eligible_count_measure_cex :
    (traverseOnce structOracle ⟨∅, []⟩ ineligTree).queue ≠ [] ∧
      eligCount (applyQueue (traverseOnce structOracle ⟨∅, []⟩ ineligTree).queue
          (traverseOnce structOracle ⟨∅, []⟩ ineligTree).root) =
        eligCount ineligTree :=
  ⟨by decide, by decide⟩

/-- Copy of the `doneTreeA` scenario on fresh instance ids, for claim C8. -/
def doneTreeB : IRNode :=
  .consB (.ifS 29 []
    (.someB (.consB (eStmt 21 5) (.consB (eStmt 23 5) .nilB)))
    (.someB (.consB (eStmt 22 5) (.consB (eStmt 24 6) .nilB)))) .nilB

/-- Counterexample to claim C8 as stated: the done-set is not discarded at
the end of each traversal.  After the first traversal of `doneTreeB` the
done-set is non-empty, and it is fed into the next traversal unchanged: a
driver that did discard the done-set after every traversal (`runReset`,
written from the claim's words) produces a different result. -/
theorem done_set_persistence_cex :
    (traverseOnce structOracle ⟨∅, []⟩ doneTreeB).visited ≠ ∅ ∧
      run structOracle doneTreeB ≠ runReset structOracle doneTreeB :=
  ⟨by decide, by decide⟩

/-- Measure for strong induction over the tree (one more than the number of
constructors on a spine). -/
def msize : IRNode → Nat
  | .noneB => 1
  | .someB b => msize b + 1
  | .nilB => 1
  | .consB h t => msize h + msize t + 1
  | .basic _ _ _ _ => 1
  | .ifS _ _ tb fb => msize tb + msize fb + 1

theorem msize_pos (n : IRNode) : 1 ≤ msize n := by
  cases n <;> simp [msize]

theorem scopes_registerVis (st : WalkSt) (k : KindKey) (i : Nat) :
    (registerVis st k i).scopes.length = st.scopes.length ∧
      (registerVis st k i).scopes.drop 1 = st.scopes.drop 1 := by
  cases hs : st.scopes <;> simp [registerVis, hs]

theorem scopes_visitGenericStep (O : Oracles) (st : WalkSt) (sid : Nat) :
    (visitGenericStep O st sid).scopes.length = st.scopes.length ∧
      (visitGenericStep O st sid).scopes.drop 1 = st.scopes.drop 1 := by
  unfold visitGenericStep
  cases hf : findStmt st.root sid
  · simp
  · simp only []
    split
    · simp
    · split
      · exact scopes_registerVis ..
      · split
        · simp
        · exact scopes_registerVis ..

theorem scopes_ifHoistStep (O : Oracles) (st : WalkSt) (i : Nat) :
    (ifHoistStep O st i).1.scopes = st.scopes := by
  unfold ifHoistStep
  split <;> rfl

theorem walk_scopes_aux (O : Oracles) :
    ∀ (k : Nat) (n : IRNode), msize n ≤ k → ∀ st : WalkSt,
      ((walkOne O st n).scopes.length = st.scopes.length ∧
        (walkOne O st n).scopes.drop 1 = st.scopes.drop 1) ∧
      (∀ a b : Bool,
        (walkSeqG O st a b n).scopes.length = st.scopes.length ∧
          (walkSeqG O st a b n).scopes.drop 1 = st.scopes.drop 1) := by
  intro k
  induction k with
  | zero =>
      intro n hn
      have := msize_pos n
      omega
  | succ k ih =>
      intro n hn st
      have hbr : ∀ (s : WalkSt) (a b : Bool) (br : IRNode), msize br ≤ k →
          (walkBr O s a b br).scopes = s.scopes := by
        intro s a b br hm
        cases br with
        | someB tc =>
            rw [walkBr_someB]
            have htc : msize tc ≤ k := by
              simp [msize] at hm
              have := msize_pos tc
              omega
            have H := ((ih tc htc (pushScope s)).2 a b).2
            simp [popScope, pushScope] at H ⊢
            exact H
        | noneB => rw [walkBr_noneB]
        | nilB => rw [walkBr_nilB]
        | consB x y => rw [walkBr_consB]
        | basic i e o kk => rw [walkBr_basic]
        | ifS i o tb fb => rw [walkBr_ifS]
      cases n with
      | noneB => exact ⟨by simp [walkOne_noneB], by intro a b; simp [walkSeqG_noneB]⟩
      | someB b =>
          exact ⟨by simp [walkOne_someB], by intro a b'; simp [walkSeqG_someB]⟩
      | nilB => exact ⟨by simp [walkOne_nilB], by intro a b; simp [walkSeqG_nil]⟩
      | basic i e o kk =>
          refine ⟨?_, ?_⟩
          · rw [walkOne_basic]
            exact scopes_visitGenericStep O st i
          · intro a b
            simp [walkSeqG_basic]
      | ifS i o tb fb =>
          have hmtb : msize tb ≤ k := by
            simp [msize] at hn
            have := msize_pos fb
            omega
          have hmfb : msize fb ≤ k := by
            simp [msize] at hn
            have := msize_pos tb
            omega
          refine ⟨?_, ?_⟩
          · rw [walkOne_ifS]
            simp only []
            have h1 := scopes_ifHoistStep O st i
            have hmid : (if curTBpresent (ifHoistStep O st i).1.root i then
                walkBr O (ifHoistStep O st i).1 (ifHoistStep O st i).2.1
                  (ifHoistStep O st i).2.2 tb
              else (ifHoistStep O st i).1).scopes = st.scopes := by
              split
              · rw [hbr _ _ _ tb hmtb, h1]
              · exact h1
            set M := (if curTBpresent (ifHoistStep O st i).1.root i then
                walkBr O (ifHoistStep O st i).1 (ifHoistStep O st i).2.1
                  (ifHoistStep O st i).2.2 tb
              else (ifHoistStep O st i).1) with hM
            refine ⟨?_, ?_⟩
            · split
              · rw [hbr _ _ _ fb hmfb, hmid]
              · rw [hmid]
            · split
              · rw [hbr _ _ _ fb hmfb, hmid]
              · rw [hmid]
          · intro a b
            simp [walkSeqG_ifS]
      | consB h t =>
          have hmh : msize h ≤ k := by
            simp [msize] at hn
            have := msize_pos t
            omega
          have hmt : msize t ≤ k := by
            simp [msize] at hn
            have := msize_pos h
            omega
          refine ⟨by simp [walkOne_consB], ?_⟩
          intro a b
          cases a with
          | true =>
              rw [walkSeqG_skip]
              exact (ih t hmt st).2 false b
          | false =>
              cases b with
              | false =>
                  rw [walkSeqG_cons]
                  have H1 := (ih h hmh st).1
                  have H2 := (ih t hmt (walkOne O st h)).2 false false
                  exact ⟨by omega, by rw [H2.2, H1.2]⟩
              | true =>
                  cases t with
                  | nilB => rw [walkSeqG_last]; simp
                  | consB x y =>
                      rw [walkSeqG_cons_lastT]
                      have H1 := (ih h hmh st).1
                      have H2 := (ih (IRNode.consB x y) hmt (walkOne O st h)).2 false true
                      exact ⟨by omega, by rw [H2.2, H1.2]⟩
                  | noneB =>
                      rw [show walkSeqG O st false true (.consB h .noneB) =
                        walkOne O st h from rfl]
                      exact (ih h hmh st).1
                  | someB x =>
                      rw [show walkSeqG O st false true (.consB h (.someB x)) =
                        walkOne O st h from rfl]
                      exact (ih h hmh st).1
                  | basic i e o kk =>
                      rw [show walkSeqG O st false true
                          (.consB h (.basic i e o kk)) = walkOne O st h from rfl]
                      exact (ih h hmh st).1
                  | ifS i o tb fb =>
                      rw [show walkSeqG O st false true
                          (.consB h (.ifS i o tb fb)) = walkOne O st h from rfl]
                      exact (ih h hmh st).1

/-- Scope discipline of the walker: visiting a block restores the
visibility-scope stack exactly (a scope is pushed when the block is entered
and popped when the walker finishes it, and inner visits only touch inner
scopes). -/
theorem walkBlock_scopes (O : Oracles) (st : WalkSt) (b : IRNode) :
    (walkBlock O st b).scopes = st.scopes := by
  have H := ((walk_scopes_aux O (msize b) b le_rfl (pushScope st)).2 false false).2
  simp [walkBlock, popScope, pushScope] at H ⊢
  exact H

/-- A full traversal leaves the visibility index exactly as it found it; in
particular every traversal of `run` works on an empty visibility index. -/
theorem traverseOnce_scopes (O : Oracles) (es : ElimSt) (root : IRNode) :
    (traverseOnce O es root).scopes = es.scopes :=
  walkBlock_scopes O _ root

/-- Block with one if-statement holding structurally identical eligible
statements (ids 3 and 6, same kind and content) in the middle of its two
branches; the leading and trailing statements of the branches all differ. -/
def disjointTree : IRNode :=
  .consB (.ifS 1 []
    (.someB (.consB (eStmt 2 10) (.consB (eStmt 3 0) (.consB (eStmt 4 11) .nilB))))
    (.someB (.consB (eStmt 5 12) (.consB (eStmt 6 0) (.consB (eStmt 7 13) .nilB)))))
    .nilB

/-- Claim C3: a visibility scope is pushed exactly when a block is entered
and popped exactly when the walker finishes it — visiting a block restores
the scope stack exactly, so candidates registered inside a closed block are
never offered outside it.  Concretely, two structurally identical eligible
statements sitting in the two disjoint branches of one if-statement (away
from the hoistable leading/trailing positions) are never merged: the pass
leaves `disjointTree` unchanged and reports no modification. -/
theorem scope_isolation_no_cross_branch_merge :
    (∀ (O : Oracles) (st : WalkSt) (b : IRNode),
      (walkBlock O st b).scopes = st.scopes) ∧
    eqNoId (eStmt 3 0) (eStmt 6 0) = true ∧
    run structOracle disjointTree = some (disjointTree, false) :=
  ⟨fun O st b => walkBlock_scopes O st b, by decide, by decide⟩

/-- Copy of the `doneTreeA` scenario on fresh instance ids (31-34, if 39),
for claim C8's amended statement. -/
def doneTreeC : IRNode :=
  .consB (.ifS 39 []
    (.someB (.consB (eStmt 31 7) (.consB (eStmt 33 7) .nilB)))
    (.someB (.consB (eStmt 32 7) (.consB (eStmt 34 8) .nilB)))) .nilB

/-- `doneTreeC` after `run`: statement 33 survives next to the hoisted,
structurally identical and visible statement 31, because 33 was finalized in
the first traversal and the done-set persisted into the second. -/
def doneTreeC1 : IRNode :=
  .consB (eStmt 31 7) (.consB (.ifS 39 []
    (.someB (.consB (eStmt 33 7) .nilB))
    (.someB (.consB (eStmt 34 8) .nilB))) .nilB)

/-- Claim C8, amended: within one `run` invocation every traversal begins
with an empty visibility index (a traversal restores the index exactly, so
the initially empty index stays empty between traversals), but the done-set
is not discarded at the end of a traversal: it persists for the whole
invocation.  Concretely, statement 33 of `doneTreeC` stays in the tree even
though the second traversal sees the structurally identical statement 31
registered and visible — 33 is still marked done from the first traversal. -/
theorem visibility_reset_done_persist_amended :
    (∀ (O : Oracles) (es : ElimSt) (root : IRNode),
      (traverseOnce O es root).scopes = es.scopes) ∧
    run structOracle doneTreeC = some (doneTreeC1, true) ∧
    eqNoId (eStmt 31 7) (eStmt 33 7) = true :=
  ⟨fun O es root => traverseOnce_scopes O es root, by decide, by decide⟩

/-- Is the tree normalized: no if-statement has a present-but-empty branch
block (the data-model invariant "empty branch is normalized to absent"). -/
def normed : IRNode → Bool
  | .someB .nilB => false
  | .someB b => normed b
  | .consB h t => normed h && normed t
  | .ifS _ _ tb fb => normed tb && normed fb
  | _ => true

theorem normBranch_eq_of_normed (b : IRNode) (hb : normed b = true) :
    normBranch b = b := by
  cases b with
  | someB x => cases x <;> simp_all [normBranch, normed]
  | _ => rfl

theorem findStmt_normed (n : IRNode) : ∀ (i : Nat) (s : IRNode),
    normed n = true → findStmt n i = some s → normed s = true := by
  induction n with
  | noneB => intro i s _ hf; simp [findStmt] at hf
  | nilB => intro i s _ hf; simp [findStmt] at hf
  | someB b ih =>
      intro i s hn hf
      rw [show findStmt (.someB b) i = findStmt b i from rfl] at hf
      cases b with
      | nilB => simp [findStmt] at hf
      | _ => exact ih i s (by simp_all [normed]) hf
  | consB h t ihh iht =>
      intro i s hn hf
      simp only [normed, Bool.and_eq_true] at hn
      rw [show findStmt (.consB h t) i =
        (match findStmt h i with
         | some s => some s
         | none => findStmt t i) from rfl] at hf
      cases hh : findStmt h i with
      | some s' =>
          rw [hh] at hf
          simp at hf
          exact hf ▸ ihh i s' hn.1 hh
      | none =>
          rw [hh] at hf
          exact iht i s hn.2 hf
  | basic j e o k =>
      intro i s hn hf
      simp only [findStmt] at hf
      by_cases hj : j = i
      · rw [if_pos hj] at hf
        simp at hf
        exact hf ▸ hn
      · rw [if_neg hj] at hf
        simp at hf
  | ifS j o tb fb ihtb ihfb =>
      intro i s hn hf
      simp only [normed, Bool.and_eq_true] at hn
      simp only [findStmt] at hf
      by_cases hj : j = i
      · rw [if_pos hj] at hf
        simp at hf
        exact hf ▸ (by simp [normed, hn.1, hn.2])
      · rw [if_neg hj] at hf
        cases hh : findStmt tb i with
        | some s' =>
            rw [hh] at hf
            simp at hf
            exact hf ▸ ihtb i s' hn.1 hh
        | none =>
            rw [hh] at hf
            exact ihfb i s hn.2 hf

theorem setStmt_none (n : IRNode) : ∀ (i : Nat) (r : IRNode),
    findStmt n i = none → setStmt n i r = (n, false) := by
  induction n with
  | noneB => intro i r _; rfl
  | nilB => intro i r _; rfl
  | someB b ih =>
      intro i r hf
      rw [show findStmt (.someB b) i = findStmt b i from rfl] at hf
      simp [setStmt, ih i r hf]
  | consB h t ihh iht =>
      intro i r hf
      rw [show findStmt (.consB h t) i =
        (match findStmt h i with
         | some s => some s
         | none => findStmt t i) from rfl] at hf
      cases hh : findStmt h i with
      | some s' => rw [hh] at hf; simp at hf
      | none =>
          rw [hh] at hf
          simp [setStmt, ihh i r hh, iht i r hf]
  | basic j e o k =>
      intro i r hf
      simp only [findStmt] at hf
      by_cases hj : j = i
      · rw [if_pos hj] at hf; simp at hf
      · simp [setStmt, hj]
  | ifS j o tb fb ihtb ihfb =>
      intro i r hf
      simp only [findStmt] at hf
      by_cases hj : j = i
      · rw [if_pos hj] at hf; simp at hf
      · rw [if_neg hj] at hf
        cases hh : findStmt tb i with
        | some s' => rw [hh] at hf; simp at hf
        | none =>
            rw [hh] at hf
            simp [setStmt, hj, ihtb i r hh, ihfb i r hf]

theorem setStmt_self (n : IRNode) : ∀ (i : Nat) (s : IRNode),
    findStmt n i = some s → setStmt n i s = (n, true) := by
  induction n with
  | noneB => intro i s hf; simp [findStmt] at hf
  | nilB => intro i s hf; simp [findStmt] at hf
  | someB b ih =>
      intro i s hf
      rw [show findStmt (.someB b) i = findStmt b i from rfl] at hf
      simp [setStmt, ih i s hf]
  | consB h t ihh iht =>
      intro i s hf
      rw [show findStmt (.consB h t) i =
        (match findStmt h i with
         | some s => some s
         | none => findStmt t i) from rfl] at hf
      cases hh : findStmt h i with
      | some s' =>
          rw [hh] at hf
          simp at hf
          subst hf
          simp [setStmt, ihh i s' hh]
      | none =>
          rw [hh] at hf
          simp [setStmt, setStmt_none h i s hh, iht i s hf]
  | basic j e o k =>
      intro i s hf
      simp only [findStmt] at hf
      by_cases hj : j = i
      · rw [if_pos hj] at hf
        simp at hf
        subst hj
        rw [← hf]
        simp [setStmt]
      · rw [if_neg hj] at hf; simp at hf
  | ifS j o tb fb ihtb ihfb =>
      intro i s hf
      simp only [findStmt] at hf
      by_cases hj : j = i
      · rw [if_pos hj] at hf
        simp at hf
        subst hj
        rw [← hf]
        simp [setStmt]
      · rw [if_neg hj] at hf
        cases hh : findStmt tb i with
        | some s' =>
            rw [hh] at hf
            simp at hf
            subst hf
            simp [setStmt, hj, ihtb i s' hh]
        | none =>
            rw [hh] at hf
            simp [setStmt, hj, setStmt_none tb i s hh, ihfb i s hf]

theorem hoistIfNode_no_edits (O : Oracles) (s : IRNode)
    (hn : normed s = true) (he : (hoistIfNode O s).edits = []) :
    (hoistIfNode O s).node = s := by
  cases s with
  | noneB => rfl
  | someB b => rfl
  | nilB => rfl
  | consB h t => rfl
  | basic i e o k => rfl
  | ifS i o tb fb =>
      have hntb : normed tb = true := by
        simp only [normed, Bool.and_eq_true] at hn; exact hn.1
      have hnfb : normed fb = true := by
        simp only [normed, Bool.and_eq_true] at hn; exact hn.2
      have e1 := normBranch_eq_of_normed tb hntb
      have e2 := normBranch_eq_of_normed fb hnfb
      simp only [hoistIfNode, e1, e2] at he ⊢
      split at he <;> try simp_all
      split at he <;> try simp_all
      all_goals (split at he <;> try simp_all)
      all_goals (split at he <;> try simp_all)
      all_goals (split at he <;> try simp_all)
      all_goals (split at he <;> try simp_all)

theorem visitGenericStep_queue (O : Oracles) (st : WalkSt) (sid : Nat) :
    st.queue.length ≤ (visitGenericStep O st sid).queue.length ∧
      ((visitGenericStep O st sid).queue.length = st.queue.length →
        (visitGenericStep O st sid).queue = st.queue ∧
          (visitGenericStep O st sid).root = st.root) := by
  unfold visitGenericStep
  cases hf : findStmt st.root sid
  · simp
  · simp only []
    split
    · simp
    · split
      · simp [registerVis]
      · split
        · refine ⟨by simp, ?_⟩
          intro hlen
          simp at hlen
        · simp [registerVis]

theorem ifHoistStep_queue (O : Oracles) (st : WalkSt) (i : Nat) :
    st.queue.length ≤ (ifHoistStep O st i).1.queue.length ∧
      (normed st.root = true →
        (ifHoistStep O st i).1.queue.length = st.queue.length →
        (ifHoistStep O st i).1.queue = st.queue ∧
          (ifHoistStep O st i).1.root = st.root) := by
  unfold ifHoistStep
  cases hf : findStmt st.root i
  · simp
  · case some s =>
      split
      · case _ i' o' tb fb heq =>
          refine ⟨by simp, ?_⟩
          intro hn hlen
          simp at hlen
          have hedits : (hoistIfNode O (.ifS i' o' tb fb)).edits = [] := hlen
          have hnode := hoistIfNode_no_edits O (.ifS i' o' tb fb)
            (by
              have := findStmt_normed st.root i (.ifS i' o' tb fb) hn
              exact this (by rw [hf, heq]))
            hedits
          constructor
          · simp [hedits]
          · simp only [hnode]
            have hself := setStmt_self st.root i (.ifS i' o' tb fb)
              (by rw [hf, heq])
            simp [hself]
      · simp

theorem walk_queue_aux (O : Oracles) :
    ∀ (k : Nat) (n : IRNode), msize n ≤ k → ∀ st : WalkSt,
      (st.queue.length ≤ (walkOne O st n).queue.length ∧
        (normed st.root = true →
          (walkOne O st n).queue.length = st.queue.length →
          (walkOne O st n).queue = st.queue ∧
            (walkOne O st n).root = st.root)) ∧
      (∀ a b : Bool,
        st.queue.length ≤ (walkSeqG O st a b n).queue.length ∧
          (normed st.root = true →
            (walkSeqG O st a b n).queue.length = st.queue.length →
            (walkSeqG O st a b n).queue = st.queue ∧
              (walkSeqG O st a b n).root = st.root)) := by
  intro k
  induction k with
  | zero =>
      intro n hn
      have := msize_pos n
      omega
  | succ k ih =>
      intro n hn st
      have hbr : ∀ (s : WalkSt) (a b : Bool) (br : IRNode), msize br ≤ k →
          s.queue.length ≤ (walkBr O s a b br).queue.length ∧
            (normed s.root = true →
              (walkBr O s a b br).queue.length = s.queue.length →
              (walkBr O s a b br).queue = s.queue ∧
                (walkBr O s a b br).root = s.root) := by
        intro s a b br hm
        cases br with
        | someB tc =>
            rw [walkBr_someB]
            have htc : msize tc ≤ k := by
              simp [msize] at hm
              have := msize_pos tc
              omega
            have H := (ih tc htc (pushScope s)).2 a b
            simp only [pushScope, popScope] at H ⊢
            exact H
        | noneB => rw [walkBr_noneB]; exact ⟨le_rfl, fun _ _ => ⟨rfl, rfl⟩⟩
        | nilB => rw [walkBr_nilB]; exact ⟨le_rfl, fun _ _ => ⟨rfl, rfl⟩⟩
        | consB x y => rw [walkBr_consB]; exact ⟨le_rfl, fun _ _ => ⟨rfl, rfl⟩⟩
        | basic i e o kk =>
            rw [walkBr_basic]; exact ⟨le_rfl, fun _ _ => ⟨rfl, rfl⟩⟩
        | ifS i o tb fb =>
            rw [walkBr_ifS]; exact ⟨le_rfl, fun _ _ => ⟨rfl, rfl⟩⟩
      cases n with
      | noneB =>
          exact ⟨⟨by simp [walkOne_noneB], by simp [walkOne_noneB]⟩,
            fun a b => ⟨by simp [walkSeqG_noneB], by simp [walkSeqG_noneB]⟩⟩
      | someB b =>
          exact ⟨⟨by simp [walkOne_someB], by simp [walkOne_someB]⟩,
            fun a b' => ⟨by simp [walkSeqG_someB], by simp [walkSeqG_someB]⟩⟩
      | nilB =>
          exact ⟨⟨by simp [walkOne_nilB], by simp [walkOne_nilB]⟩,
            fun a b => ⟨by simp [walkSeqG_nil], by simp [walkSeqG_nil]⟩⟩
      | basic i e o kk =>
          refine ⟨?_, ?_⟩
          · rw [walkOne_basic]
            have H := visitGenericStep_queue O st i
            exact ⟨H.1, fun _ => H.2⟩
          · intro a b
            simp [walkSeqG_basic]
      | ifS i o tb fb =>
          have hmtb : msize tb ≤ k := by
            simp [msize] at hn
            have := msize_pos fb
            omega
          have hmfb : msize fb ≤ k := by
            simp [msize] at hn
            have := msize_pos tb
            omega
          refine ⟨?_, ?_⟩
          · rw [walkOne_ifS]
            simp only []
            have hA := ifHoistStep_queue O st i
            have hB := hbr (ifHoistStep O st i).1 (ifHoistStep O st i).2.1
              (ifHoistStep O st i).2.2 tb hmtb
            set A := (ifHoistStep O st i).1 with hAdef
            have hBif : A.queue.length ≤
                (if curTBpresent A.root i then
                  walkBr O A (ifHoistStep O st i).2.1 (ifHoistStep O st i).2.2 tb
                else A).queue.length ∧
                (normed A.root = true →
                  (if curTBpresent A.root i then
                    walkBr O A (ifHoistStep O st i).2.1 (ifHoistStep O st i).2.2 tb
                  else A).queue.length = A.queue.length →
                  (if curTBpresent A.root i then
                    walkBr O A (ifHoistStep O st i).2.1 (ifHoistStep O st i).2.2 tb
                  else A).queue = A.queue ∧
                    (if curTBpresent A.root i then
                      walkBr O A (ifHoistStep O st i).2.1 (ifHoistStep O st i).2.2 tb
                    else A).root = A.root) := by
              split
              · exact hB
              · exact ⟨le_rfl, fun _ _ => ⟨rfl, rfl⟩⟩
            set B := (if curTBpresent A.root i then
              walkBr O A (ifHoistStep O st i).2.1 (ifHoistStep O st i).2.2 tb
            else A) with hBdef
            have hC := hbr B (ifHoistStep O st i).2.1 (ifHoistStep O st i).2.2
              fb hmfb
            have hCif : B.queue.length ≤
                (if curFBpresent B.root i then
                  walkBr O B (ifHoistStep O st i).2.1 (ifHoistStep O st i).2.2 fb
                else B).queue.length ∧
                (normed B.root = true →
                  (if curFBpresent B.root i then
                    walkBr O B (ifHoistStep O st i).2.1 (ifHoistStep O st i).2.2 fb
                  else B).queue.length = B.queue.length →
                  (if curFBpresent B.root i then
                    walkBr O B (ifHoistStep O st i).2.1 (ifHoistStep O st i).2.2 fb
                  else B).queue = B.queue ∧
                    (if curFBpresent B.root i then
                      walkBr O B (ifHoistStep O st i).2.1 (ifHoistStep O st i).2.2 fb
                    else B).root = B.root) := by
              split
              · exact hC
              · exact ⟨le_rfl, fun _ _ => ⟨rfl, rfl⟩⟩
            refine ⟨by omega, ?_⟩
            intro hnr hlen
            have l1 : A.queue.length = st.queue.length := by omega
            have l2 : B.queue.length = A.queue.length := by omega
            have l3 : (if curFBpresent B.root i then
                walkBr O B (ifHoistStep O st i).2.1 (ifHoistStep O st i).2.2 fb
              else B).queue.length = B.queue.length := by omega
            have s1 := hA.2 hnr l1
            have s2 := hBif.2 (by rw [s1.2]; exact hnr) l2
            have s3 := hCif.2 (by rw [s2.2, s1.2]; exact hnr) l3
            have := s3.1
            have := s3.2
            constructor
            · rw [s3.1, s2.1, s1.1]
            · rw [s3.2, s2.2, s1.2]
          · intro a b
            simp [walkSeqG_ifS]
      | consB h t =>
          have hmh : msize h ≤ k := by
            simp [msize] at hn
            have := msize_pos t
            omega
          have hmt : msize t ≤ k := by
            simp [msize] at hn
            have := msize_pos h
            omega
          refine ⟨⟨by simp [walkOne_consB], by simp [walkOne_consB]⟩, ?_⟩
          intro a b
          have comp : ∀ (b' : Bool),
              st.queue.length ≤
                (walkSeqG O (walkOne O st h) false b' t).queue.length ∧
              (normed st.root = true →
                (walkSeqG O (walkOne O st h) false b' t).queue.length =
                  st.queue.length →
                (walkSeqG O (walkOne O st h) false b' t).queue = st.queue ∧
                  (walkSeqG O (walkOne O st h) false b' t).root = st.root) := by
            intro b'
            have H1 := (ih h hmh st).1
            have H2 := (ih t hmt (walkOne O st h)).2 false b'
            refine ⟨by omega, ?_⟩
            intro hnr hlen
            have l1 : (walkOne O st h).queue.length = st.queue.length := by omega
            have s1 := H1.2 hnr l1
            have s2 := H2.2 (by rw [s1.2]; exact hnr) (by omega)
            exact ⟨by rw [s2.1, s1.1], by rw [s2.2, s1.2]⟩
          cases a with
          | true =>
              rw [walkSeqG_skip]
              exact (ih t hmt st).2 false b
          | false =>
              cases b with
              | false =>
                  rw [walkSeqG_cons]
                  exact comp false
              | true =>
                  cases t with
                  | nilB =>
                      rw [walkSeqG_last]
                      exact ⟨le_rfl, fun _ _ => ⟨rfl, rfl⟩⟩
                  | consB x y =>
                      rw [walkSeqG_cons_lastT]
                      exact comp true
                  | noneB =>
                      rw [show walkSeqG O st false true (.consB h .noneB) =
                        walkOne O st h from rfl]
                      have H := (ih h hmh st).1
                      exact ⟨H.1, fun hnr => H.2 hnr⟩
                  | someB x =>
                      rw [show walkSeqG O st false true (.consB h (.someB x)) =
                        walkOne O st h from rfl]
                      have H := (ih h hmh st).1
                      exact ⟨H.1, fun hnr => H.2 hnr⟩
                  | basic i e o kk =>
                      rw [show walkSeqG O st false true
                          (.consB h (.basic i e o kk)) = walkOne O st h from rfl]
                      have H := (ih h hmh st).1
                      exact ⟨H.1, fun hnr => H.2 hnr⟩
                  | ifS i o tb fb =>
                      rw [show walkSeqG O st false true
                          (.consB h (.ifS i o tb fb)) = walkOne O st h from rfl]
                      have H := (ih h hmh st).1
                      exact ⟨H.1, fun hnr => H.2 hnr⟩

/-- A traversal that queues no edit leaves a normalized tree unchanged:
every eager mutation of the walker (covers merge, usage reroute, hoist
extraction) is queued alongside an edit, and normalization only fires on a
present-but-empty branch. -/
theorem traverseOnce_no_edits_no_change (O : Oracles) (es : ElimSt)
    (root : IRNode) (hn : normed root = true)
    (hq : (traverseOnce O es root).queue = []) :
    (traverseOnce O es root).root = root := by
  have H := (walk_queue_aux O (msize root) root le_rfl
    (pushScope ⟨root, es.visited, es.scopes, []⟩)).2 false false
  simp only [pushScope] at H
  have hq' : (walkSeqG O ⟨root, es.visited, [] :: es.scopes, []⟩ false false
      root).queue = [] := by
    have : (traverseOnce O es root).queue =
        (walkSeqG O ⟨root, es.visited, [] :: es.scopes, []⟩ false false
          root).queue := rfl
    rw [← this, hq]
  have hlen : (walkSeqG O ⟨root, es.visited, [] :: es.scopes, []⟩ false false
      root).queue.length = ([] : List EditOp).length := by
    rw [hq']
  have := (H.2 hn hlen).2
  exact this

set_option maxHeartbeats 400000 in
/-- Claim C6, amended: the pass need not be idempotent — a second `run` call
may modify the tree further and return true (see the counterexample) —
but a `run` call that reports no change on a normalized tree really is at a
fixed point: it leaves the tree unchanged, and a further `run` call again
reports no change and leaves it unchanged. -/
theorem fixed_point_stability_amended (O : Oracles) (root t : IRNode)
    (hn : normed root = true) (h : run O root = some (t, false)) :
    t = root ∧ run O t = some (t, false) := by
  have h' := h
  rw [run, runAux_succ] at h'
  by_cases hq : (traverseOnce O ⟨∅, []⟩ root).queue = []
  · rw [if_pos hq] at h'
    have hroot := traverseOnce_no_edits_no_change O ⟨∅, []⟩ root hn hq
    have ht : t = root := by
      have := Option.some.inj h'
      have h1 : (traverseOnce O ⟨∅, []⟩ root).root = t :=
        congrArg Prod.fst this
      rw [← h1, hroot]
    refine ⟨ht, ?_⟩
    rw [ht]
    rw [ht] at h
    exact h
  · rw [if_neg hq] at h'
    exfalso
    cases hr : runAux O (size root) ⟨(traverseOnce O ⟨∅, []⟩ root).visited,
        (traverseOnce O ⟨∅, []⟩ root).scopes⟩
        (applyQueue (traverseOnce O ⟨∅, []⟩ root).queue
          (traverseOnce O ⟨∅, []⟩ root).root) with
    | none => rw [hr] at h'; simp at h'
    | some p =>
        rw [hr] at h'
        cases p with
        | mk t' b =>
            simp at h'

/-- Normalized two-statement block on which the pass reports no change. -/
def fixedTree : IRNode :=
  .consB (eStmt 41 0) (.consB (eStmt 42 1) .nilB)

/-- Witness for `fixed_point_stability_amended` at a concrete input. -/
theorem fixed_point_stability_amended_witness :
    fixedTree = fixedTree ∧
      run structOracle fixedTree = some (fixedTree, false) :=
  fixed_point_stability_amended structOracle fixedTree fixedTree (by decide)
    (by decide)

/-- Number of insertion edits in a queue. -/
def insCount : List EditOp → Nat
  | [] => 0
  | .insBefore _ _ :: r => insCount r + 1
  | .insAfter _ _ :: r => insCount r + 1
  | .eraseOp _ :: r => insCount r

/-- Total statement count of the insertion payloads of a queue. -/
def plsSum : List EditOp → Nat
  | [] => 0
  | .insBefore _ p :: r => size p + plsSum r
  | .insAfter _ p :: r => size p + plsSum r
  | .eraseOp _ :: r => plsSum r

/-- Instance ids of the queued erasures, in order. -/
def victims : List EditOp → List Nat
  | [] => []
  | .eraseOp v :: r => v :: victims r
  | _ :: r => victims r

/-- Is the node a well-formed block: a chain whose elements are statements,
with every if-statement branch either absent or a well-formed block. -/
def wfB : IRNode → Bool
  | .nilB => true
  | .consB (.basic _ _ _ _) t => wfB t
  | .consB (.ifS _ _ .noneB .noneB) t => wfB t
  | .consB (.ifS _ _ .noneB (.someB fbc)) t => wfB fbc && wfB t
  | .consB (.ifS _ _ (.someB tbc) .noneB) t => wfB tbc && wfB t
  | .consB (.ifS _ _ (.someB tbc) (.someB fbc)) t =>
      wfB tbc && wfB fbc && wfB t
  | _ => false

/-- Is the node a well-formed statement. -/
def wfS : IRNode → Bool
  | .basic _ _ _ _ => true
  | .ifS _ _ .noneB .noneB => true
  | .ifS _ _ .noneB (.someB fbc) => wfB fbc
  | .ifS _ _ (.someB tbc) .noneB => wfB tbc
  | .ifS _ _ (.someB tbc) (.someB fbc) => wfB tbc && wfB fbc
  | _ => false

/-- Are all insertion payloads of a queue well-formed statements. -/
def wfQ : List EditOp → Bool
  | [] => true
  | .insBefore _ p :: r => wfS p && wfQ r
  | .insAfter _ p :: r => wfS p && wfQ r
  | .eraseOp _ :: r => wfQ r

theorem wfB_cons (h t : IRNode) : wfB (.consB h t) = (wfS h && wfB t) := by
  cases h with
  | ifS i o tb fb => cases tb <;> cases fb <;> simp [wfB, wfS, Bool.and_assoc]
  | _ => simp [wfB, wfS]

theorem size_eq_idsOf_length (n : IRNode) : size n = (idsOf n).length := by
  induction n <;> simp_all [size, idsOf] <;> omega

theorem size_mapAllOps (f : List Nat → List Nat) (n : IRNode) :
    size (mapAllOps f n) = size n := by
  induction n <;> simp_all [size, mapAllOps]

theorem idsOf_mapAllOps (f : List Nat → List Nat) (n : IRNode) :
    idsOf (mapAllOps f n) = idsOf n := by
  induction n <;> simp_all [idsOf, mapAllOps]

theorem size_pos_of_wfS (s : IRNode) (hs : wfS s = true) : 1 ≤ size s := by
  cases s with
  | basic i e o k => simp [size]
  | ifS i o tb fb => simp [size]; omega
  | _ => simp [wfS] at hs

theorem insCount_append (q1 q2 : List EditOp) :
    insCount (q1 ++ q2) = insCount q1 + insCount q2 := by
  induction q1 with
  | nil => simp [insCount]
  | cons op r ih => cases op <;> simp [insCount, ih] <;> omega

theorem plsSum_append (q1 q2 : List EditOp) :
    plsSum (q1 ++ q2) = plsSum q1 + plsSum q2 := by
  induction q1 with
  | nil => simp [plsSum]
  | cons op r ih => cases op <;> simp [plsSum, ih] <;> omega

theorem victims_append (q1 q2 : List EditOp) :
    victims (q1 ++ q2) = victims q1 ++ victims q2 := by
  induction q1 with
  | nil => simp [victims]
  | cons op r ih => cases op <;> simp [victims, ih]

theorem wfQ_append (q1 q2 : List EditOp) :
    wfQ (q1 ++ q2) = (wfQ q1 && wfQ q2) := by
  induction q1 with
  | nil => simp [wfQ]
  | cons op r ih => cases op <;> simp [wfQ, ih, Bool.and_assoc]

theorem wf_mapAllOps (f : List Nat → List Nat) :
    ∀ (k : Nat) (n : IRNode), msize n ≤ k →
      wfB (mapAllOps f n) = wfB n ∧ wfS (mapAllOps f n) = wfS n := by
  intro k
  induction k with
  | zero =>
      intro n hn
      have := msize_pos n
      omega
  | succ k ih =>
      intro n hn
      cases n with
      | noneB => simp [mapAllOps, wfB, wfS]
      | nilB => simp [mapAllOps, wfB, wfS]
      | someB b => simp [mapAllOps, wfB, wfS]
      | basic i e o kk => simp [mapAllOps, wfB, wfS]
      | ifS i o tb fb =>
          have hmtb : msize tb ≤ k := by
            simp [msize] at hn
            have := msize_pos fb
            omega
          have hmfb : msize fb ≤ k := by
            simp [msize] at hn
            have := msize_pos tb
            omega
          constructor
          · simp [mapAllOps, wfB]
          · cases tb with
            | someB x =>
                have hmx : msize x ≤ k := by
                  simp [msize] at hmtb
                  omega
                cases fb with
                | someB y =>
                    have hmy : msize y ≤ k := by
                      simp [msize] at hmfb
                      omega
                    simp only [mapAllOps, wfS]
                    rw [(ih x hmx).1, (ih y hmy).1]
                | noneB =>
                    simp only [mapAllOps, wfS]
                    exact (ih x hmx).1
                | nilB => rfl
                | consB a b => rfl
                | basic a b c d => rfl
                | ifS a b c d => rfl
            | noneB =>
                cases fb with
                | someB y =>
                    have hmy : msize y ≤ k := by
                      simp [msize] at hmfb
                      omega
                    simp only [mapAllOps, wfS]
                    exact (ih y hmy).1
                | noneB => rfl
                | nilB => rfl
                | consB a b => rfl
                | basic a b c d => rfl
                | ifS a b c d => rfl
            | nilB => cases fb <;> rfl
            | consB a b => cases fb <;> rfl
            | basic a b c d => cases fb <;> rfl
            | ifS a b c d => cases fb <;> rfl
      | consB h t =>
          have hmh : msize h ≤ k := by
            simp [msize] at hn
            have := msize_pos t
            omega
          have hmt : msize t ≤ k := by
            simp [msize] at hn
            have := msize_pos h
            omega
          constructor
          · rw [show mapAllOps f (.consB h t) =
              .consB (mapAllOps f h) (mapAllOps f t) from rfl]
            rw [wfB_cons, wfB_cons, (ih h hmh).2, (ih t hmt).1]
          · simp [mapAllOps, wfS]

theorem wfS_mapAllOps (f : List Nat → List Nat) (n : IRNode) :
    wfS (mapAllOps f n) = wfS n :=
  (wf_mapAllOps f (msize n) n le_rfl).2

theorem wfB_mapAllOps (f : List Nat → List Nat) (n : IRNode) :
    wfB (mapAllOps f n) = wfB n :=
  (wf_mapAllOps f (msize n) n le_rfl).1

theorem insCount_mapRewrite (a b : Nat) (q : List EditOp) :
    insCount (q.map (payloadRewrite a b)) = insCount q := by
  induction q with
  | nil => simp [insCount]
  | cons op r ih => cases op <;> simp [payloadRewrite, insCount, ih]

theorem plsSum_mapRewrite (a b : Nat) (q : List EditOp) :
    plsSum (q.map (payloadRewrite a b)) = plsSum q := by
  induction q with
  | nil => simp [plsSum]
  | cons op r ih =>
      cases op <;>
        simp [payloadRewrite, plsSum, ih, replaceUsages, size_mapAllOps]

theorem victims_mapRewrite (a b : Nat) (q : List EditOp) :
    victims (q.map (payloadRewrite a b)) = victims q := by
  induction q with
  | nil => simp [victims]
  | cons op r ih => cases op <;> simp [payloadRewrite, victims, ih]

theorem wfQ_mapRewrite (a b : Nat) (q : List EditOp) :
    wfQ (q.map (payloadRewrite a b)) = wfQ q := by
  induction q with
  | nil => simp [wfQ]
  | cons op r ih =>
      cases op <;>
        simp [payloadRewrite, wfQ, ih, replaceUsages, wfS_mapAllOps]

theorem findStmt_wf :
    ∀ (k : Nat) (n : IRNode), msize n ≤ k → ∀ (i : Nat) (s : IRNode),
      (wfB n = true → findStmt n i = some s → wfS s = true) ∧
      (wfS n = true → findStmt n i = some s → wfS s = true) := by
  intro k
  induction k with
  | zero =>
      intro n hn
      have := msize_pos n
      omega
  | succ k ih =>
      intro n hn i s
      cases n with
      | noneB => exact ⟨fun _ hf => by simp [findStmt] at hf,
          fun _ hf => by simp [findStmt] at hf⟩
      | nilB => exact ⟨fun _ hf => by simp [findStmt] at hf,
          fun _ hf => by simp [findStmt] at hf⟩
      | someB b => exact ⟨fun hw => by simp [wfB] at hw,
          fun hw => by simp [wfS] at hw⟩
      | basic j e o kk =>
          refine ⟨fun hw => by simp [wfB] at hw, fun _ hf => ?_⟩
          simp only [findStmt] at hf
          by_cases hj : j = i
          · rw [if_pos hj] at hf
            simp at hf
            rw [← hf]
            simp [wfS]
          · rw [if_neg hj] at hf
            simp at hf
      | consB h t =>
          have hmh : msize h ≤ k := by
            simp [msize] at hn
            have := msize_pos t
            omega
          have hmt : msize t ≤ k := by
            simp [msize] at hn
            have := msize_pos h
            omega
          refine ⟨fun hw hf => ?_, fun hw => by simp [wfS] at hw⟩
          rw [wfB_cons, Bool.and_eq_true] at hw
          rw [show findStmt (.consB h t) i =
            (match findStmt h i with
             | some s => some s
             | none => findStmt t i) from rfl] at hf
          cases hh : findStmt h i with
          | some s' =>
              rw [hh] at hf
              simp at hf
              exact hf ▸ (ih h hmh i s').2 hw.1 hh
          | none =>
              rw [hh] at hf
              exact (ih t hmt i s).1 hw.2 hf
      | ifS j o tb fb =>
          have hmtb : msize tb ≤ k := by
            simp [msize] at hn
            have := msize_pos fb
            omega
          have hmfb : msize fb ≤ k := by
            simp [msize] at hn
            have := msize_pos tb
            omega
          refine ⟨fun hw => by simp [wfB] at hw, fun hw hf => ?_⟩
          simp only [findStmt] at hf
          by_cases hj : j = i
          · rw [if_pos hj] at hf
            simp at hf
            exact hf ▸ hw
          · rw [if_neg hj] at hf
            have htb : findStmt tb i = some s → wfS s = true := by
              intro hftb
              cases tb with
              | noneB => simp [findStmt] at hftb
              | someB c =>
                  have hmc : msize c ≤ k := by
                    simp [msize] at hmtb
                    omega
                  have hwc : wfB c = true := by
                    cases fb <;> simp [wfS] at hw <;>
                      first | exact hw | exact hw.1
                  rw [show findStmt (IRNode.someB c) i = findStmt c i
                    from rfl] at hftb
                  exact (ih c hmc i s).1 hwc hftb
              | _ =>
                  cases fb <;> simp [wfS] at hw
            have hfb : findStmt fb i = some s → wfS s = true := by
              intro hffb
              cases fb with
              | noneB => simp [findStmt] at hffb
              | someB c =>
                  have hmc : msize c ≤ k := by
                    simp [msize] at hmfb
                    omega
                  have hwc : wfB c = true := by
                    cases tb <;> simp [wfS] at hw <;>
                      first | exact hw | exact hw.2
                  rw [show findStmt (IRNode.someB c) i = findStmt c i
                    from rfl] at hffb
                  exact (ih c hmc i s).1 hwc hffb
              | _ =>
                  cases tb <;> simp [wfS] at hw
            cases hh : findStmt tb i with
            | some s2 =>
                rw [hh] at hf
                simp at hf
                subst hf
                exact htb hh
            | none =>
                rw [hh] at hf
                exact hfb hf

theorem findStmt_wfS (n : IRNode) (i : Nat) (s : IRNode)
    (hw : wfB n = true) (hf : findStmt n i = some s) : wfS s = true :=
  (findStmt_wf (msize n) n le_rfl i s).1 hw hf

theorem setStmt_wf :
    ∀ (k : Nat) (n : IRNode), msize n ≤ k → ∀ (i : Nat) (r : IRNode),
      wfS r = true →
      (wfB n = true → wfB (setStmt n i r).1 = true) ∧
      (wfS n = true → wfS (setStmt n i r).1 = true) := by
  intro k
  induction k with
  | zero =>
      intro n hn
      have := msize_pos n
      omega
  | succ k ih =>
      intro n hn i r hr
      cases n with
      | noneB => exact ⟨fun hw => by simpa [setStmt] using hw,
          fun hw => by simp [wfS] at hw⟩
      | nilB => exact ⟨fun hw => by simpa [setStmt] using hw,
          fun hw => by simp [wfS] at hw⟩
      | someB b => exact ⟨fun hw => by simp [wfB] at hw,
          fun hw => by simp [wfS] at hw⟩
      | basic j e o kk =>
          refine ⟨fun hw => by simp [wfB] at hw, fun _ => ?_⟩
          simp only [setStmt]
          by_cases hj : j = i
          · rw [if_pos hj]
            exact hr
          · rw [if_neg hj]
            simp [wfS]
      | consB h t =>
          have hmh : msize h ≤ k := by
            simp [msize] at hn
            have := msize_pos t
            omega
          have hmt : msize t ≤ k := by
            simp [msize] at hn
            have := msize_pos h
            omega
          refine ⟨fun hw => ?_, fun hw => by simp [wfS] at hw⟩
          rw [wfB_cons, Bool.and_eq_true] at hw
          rw [show setStmt (.consB h t) i r =
            (let p := setStmt h i r
             if p.2 then (.consB p.1 t, true)
             else
               let q := setStmt t i r
               (.consB h q.1, q.2)) from rfl]
          simp only []
          split
          · rw [show (IRNode.consB (setStmt h i r).1 t, true).1 =
              IRNode.consB (setStmt h i r).1 t from rfl]
            rw [wfB_cons, Bool.and_eq_true]
            exact ⟨(ih h hmh i r hr).2 hw.1, hw.2⟩
          · rw [show (IRNode.consB h (setStmt t i r).1,
              (setStmt t i r).2).1 = IRNode.consB h (setStmt t i r).1
              from rfl]
            rw [wfB_cons, Bool.and_eq_true]
            exact ⟨hw.1, (ih t hmt i r hr).1 hw.2⟩
      | ifS j o tb fb =>
          have hmtb : msize tb ≤ k := by
            simp [msize] at hn
            have := msize_pos fb
            omega
          have hmfb : msize fb ≤ k := by
            simp [msize] at hn
            have := msize_pos tb
            omega
          refine ⟨fun hw => by simp [wfB] at hw, fun hw => ?_⟩
          simp only [setStmt]
          by_cases hj : j = i
          · rw [if_pos hj]
            exact hr
          · rw [if_neg hj]
            cases tb with
            | someB c =>
                have hmc : msize c ≤ k := by
                  simp [msize] at hmtb
                  omega
                have hwc : wfB c = true := by
                  cases fb <;> simp [wfS] at hw <;>
                    first | exact hw | exact hw.1
                rw [show setStmt (IRNode.someB c) i r =
                  (IRNode.someB (setStmt c i r).1, (setStmt c i r).2)
                  from rfl]
                cases hflag : (setStmt c i r).2 with
                | true =>
                    rw [if_pos rfl]
                    have hwc' := (ih c hmc i r hr).1 hwc
                    cases fb with
                    | noneB => simpa [wfS] using hwc'
                    | someB y =>
                        simp [wfS] at hw ⊢
                        exact ⟨hwc', hw.2⟩
                    | nilB => simp [wfS] at hw
                    | consB a b => simp [wfS] at hw
                    | basic a b cc d => simp [wfS] at hw
                    | ifS a b cc d => simp [wfS] at hw
                | false =>
                    rw [if_neg (by simp)]
                    cases fb with
                    | noneB =>
                        rw [show setStmt IRNode.noneB i r =
                          (IRNode.noneB, false) from rfl]
                        simpa [wfS] using hwc
                    | someB y =>
                        have hmy : msize y ≤ k := by
                          simp [msize] at hmfb
                          omega
                        have hwy : wfB y = true := by
                          simp [wfS] at hw
                          exact hw.2
                        rw [show setStmt (IRNode.someB y) i r =
                          (IRNode.someB (setStmt y i r).1,
                            (setStmt y i r).2) from rfl]
                        simp [wfS]
                        exact ⟨hwc, (ih y hmy i r hr).1 hwy⟩
                    | nilB => simp [wfS] at hw
                    | consB a b => simp [wfS] at hw
                    | basic a b cc d => simp [wfS] at hw
                    | ifS a b cc d => simp [wfS] at hw
            | noneB =>
                rw [show setStmt IRNode.noneB i r = (IRNode.noneB, false)
                  from rfl]
                rw [if_neg (by simp)]
                cases fb with
                | noneB =>
                    rw [show setStmt IRNode.noneB i r = (IRNode.noneB, false)
                      from rfl]
                    simp [wfS]
                | someB y =>
                    have hmy : msize y ≤ k := by
                      simp [msize] at hmfb
                      omega
                    have hwy : wfB y = true := by
                      simpa [wfS] using hw
                    rw [show setStmt (IRNode.someB y) i r =
                      (IRNode.someB (setStmt y i r).1, (setStmt y i r).2)
                      from rfl]
                    simpa [wfS] using (ih y hmy i r hr).1 hwy
                | nilB => simp [wfS] at hw
                | consB a b => simp [wfS] at hw
                | basic a b cc d => simp [wfS] at hw
                | ifS a b cc d => simp [wfS] at hw
            | nilB => cases fb <;> simp [wfS] at hw
            | consB a b => cases fb <;> simp [wfS] at hw
            | basic a b cc d => cases fb <;> simp [wfS] at hw
            | ifS a b cc d => cases fb <;> simp [wfS] at hw

theorem setStmt_wfB (n : IRNode) (i : Nat) (r : IRNode) (hr : wfS r = true)
    (hw : wfB n = true) : wfB (setStmt n i r).1 = true :=
  (setStmt_wf (msize n) n le_rfl i r hr).1 hw

theorem setStmt_spec (n : IRNode) : ∀ (i : Nat) (r s : IRNode),
    findStmt n i = some s →
    (setStmt n i r).2 = true ∧
    size (setStmt n i r).1 + size s = size n + size r ∧
    (idsOf r = idsOf s → idsOf (setStmt n i r).1 = idsOf n) := by
  induction n with
  | noneB => intro i r s hf; simp [findStmt] at hf
  | nilB => intro i r s hf; simp [findStmt] at hf
  | someB b ih =>
      intro i r s hf
      rw [show findStmt (.someB b) i = findStmt b i from rfl] at hf
      have H := ih i r s hf
      rw [show setStmt (.someB b) i r =
        (IRNode.someB (setStmt b i r).1, (setStmt b i r).2) from rfl]
      exact ⟨H.1, by simpa [size] using H.2.1,
        fun hr => by simpa [idsOf] using H.2.2 hr⟩
  | consB h t ihh iht =>
      intro i r s hf
      rw [show findStmt (.consB h t) i =
        (match findStmt h i with
         | some s => some s
         | none => findStmt t i) from rfl] at hf
      rw [show setStmt (.consB h t) i r =
        (let p := setStmt h i r
         if p.2 then (.consB p.1 t, true)
         else
           let q := setStmt t i r
           (.consB h q.1, q.2)) from rfl]
      simp only []
      cases hh : findStmt h i with
      | some s' =>
          rw [hh] at hf
          simp at hf
          subst hf
          have H := ihh i r s' hh
          rw [if_pos H.1]
          refine ⟨rfl, ?_, ?_⟩
          · simp only [size]
            omega
          · intro hr
            simp only [idsOf]
            rw [H.2.2 hr]
      | none =>
          rw [hh] at hf
          have H := iht i r s hf
          rw [setStmt_none h i r hh]
          rw [if_neg (by simp)]
          refine ⟨H.1, ?_, ?_⟩
          · simp only [size]
            omega
          · intro hr
            simp only [idsOf]
            rw [H.2.2 hr]
  | basic j e o k =>
      intro i r s hf
      simp only [findStmt] at hf
      by_cases hj : j = i
      · rw [if_pos hj] at hf
        simp at hf
        subst hf
        simp only [setStmt, if_pos hj]
        refine ⟨trivial, by simp only [size]; omega, fun hr => by
          simp only [idsOf] at hr ⊢
          rw [hr]⟩
      · rw [if_neg hj] at hf
        simp at hf
  | ifS j o tb fb ihtb ihfb =>
      intro i r s hf
      simp only [findStmt] at hf
      by_cases hj : j = i
      · rw [if_pos hj] at hf
        simp at hf
        subst hf
        simp only [setStmt, if_pos hj]
        refine ⟨trivial, by omega, fun hr => by rw [hr]⟩
      · rw [if_neg hj] at hf
        simp only [setStmt, if_neg hj]
        cases hh : findStmt tb i with
        | some s' =>
            rw [hh] at hf
            simp at hf
            subst hf
            have H := ihtb i r s' hh
            rw [if_pos H.1]
            refine ⟨rfl, ?_, ?_⟩
            · simp only [size]
              omega
            · intro hr
              simp only [idsOf]
              rw [H.2.2 hr]
        | none =>
            rw [hh] at hf
            have H := ihfb i r s hf
            rw [setStmt_none tb i r hh]
            rw [if_neg (by simp)]
            refine ⟨H.1, ?_, ?_⟩
            · simp only [size]
              omega
            · intro hr
              simp only [idsOf]
              rw [H.2.2 hr]

/-- Is the node a well-formed optional branch block. -/
def wfOB : IRNode → Bool
  | .noneB => true
  | .someB c => wfB c
  | _ => false

theorem wfS_ifS (i : Nat) (o : List Nat) (tb fb : IRNode) :
    wfS (.ifS i o tb fb) = (wfOB tb && wfOB fb) := by
  cases tb <;> cases fb <;> simp [wfS, wfOB]

theorem cseEliminable_prev (O : Oracles) (s c : IRNode) :
    idsOf (cseEliminable O s c).2 = idsOf c ∧
    size (cseEliminable O s c).2 = size c ∧
    (wfS c = true → wfS (cseEliminable O s c).2 = true) := by
  unfold cseEliminable
  repeat' split
  all_goals simp_all [idsOf, size, wfS]

theorem idsOf_normBranch (b : IRNode) : idsOf (normBranch b) = idsOf b := by
  cases b with
  | someB c => cases c <;> simp [normBranch, idsOf]
  | _ => rfl

theorem size_normBranch (b : IRNode) : size (normBranch b) = size b := by
  rw [size_eq_idsOf_length, size_eq_idsOf_length, idsOf_normBranch]

theorem wfOB_normBranch (b : IRNode) (hw : wfOB b = true) :
    wfOB (normBranch b) = true := by
  cases b with
  | someB c => cases c <;> simp_all [normBranch, wfOB, wfB]
  | _ => simpa [normBranch] using hw

theorem chainLast_mapAllOps (f : List Nat → List Nat) (c : IRNode) :
    chainLast (mapAllOps f c) = (chainLast c).map (mapAllOps f) := by
  induction c with
  | consB h t ihh iht =>
      rw [show mapAllOps f (.consB h t) =
        .consB (mapAllOps f h) (mapAllOps f t) from rfl]
      rw [show chainLast (IRNode.consB (mapAllOps f h) (mapAllOps f t)) =
        (match chainLast (mapAllOps f t) with
         | some x => some x
         | none => some (mapAllOps f h)) from rfl]
      rw [show chainLast (IRNode.consB h t) =
        (match chainLast t with
         | some x => some x
         | none => some h) from rfl]
      rw [iht]
      cases chainLast t <;> simp
  | noneB => rfl
  | someB b ih => rfl
  | nilB => rfl
  | basic i e o k => rfl
  | ifS i o tb fb ihtb ihfb => rfl

theorem chain_last_split (c : IRNode) : wfB c = true →
    ∀ l : IRNode, chainLast c = some l →
      wfS l = true ∧ size (chainDropLast c) + size l = size c ∧
        wfB (chainDropLast c) = true := by
  induction c with
  | consB h t ihh iht =>
      intro hw l hl
      rw [wfB_cons, Bool.and_eq_true] at hw
      rw [show chainLast (IRNode.consB h t) =
        (match chainLast t with
         | some x => some x
         | none => some h) from rfl] at hl
      cases ht : chainLast t with
      | some x =>
          rw [ht] at hl
          simp at hl
          subst hl
          have H := iht hw.2 x ht
          cases t with
          | consB h2 t2 =>
              rw [show chainDropLast (.consB h (.consB h2 t2)) =
                .consB h (chainDropLast (.consB h2 t2)) from rfl]
              refine ⟨H.1, ?_, ?_⟩
              · have h1 := H.2.1
                simp only [size] at h1 ⊢
                omega
              · rw [wfB_cons, Bool.and_eq_true]
                exact ⟨hw.1, H.2.2⟩
          | nilB => simp [chainLast] at ht
          | noneB => simp [chainLast] at ht
          | someB a => simp [chainLast] at ht
          | basic a b cc d => simp [chainLast] at ht
          | ifS a b cc d => simp [chainLast] at ht
      | none =>
          rw [ht] at hl
          simp at hl
          subst hl
          cases t with
          | nilB =>
              refine ⟨hw.1, ?_, ?_⟩
              · simp [chainDropLast, size]
              · simp [chainDropLast, wfB]
          | consB h2 t2 =>
              exfalso
              rw [show chainLast (IRNode.consB h2 t2) =
                (match chainLast t2 with
                 | some x => some x
                 | none => some h2) from rfl] at ht
              cases hct : chainLast t2 <;> rw [hct] at ht <;> simp at ht
          | noneB => simp [wfB] at hw
          | someB a => simp [wfB] at hw
          | basic a b cc d => simp [wfB] at hw
          | ifS a b cc d => simp [wfB] at hw
  | noneB => intro hw; simp [wfB] at hw
  | someB b ih => intro hw; simp [wfB] at hw
  | nilB => intro _ l hl; simp [chainLast] at hl
  | basic i e o k => intro hw; simp [wfB] at hw
  | ifS i o tb fb ihtb ihfb => intro hw; simp [wfB] at hw

/-- A well-formed non-empty block chain has a last statement. -/
theorem chainLast_some (c : IRNode) (hw : wfB c = true)
    (hn : chainIsNil c = false) :
    ∃ l, chainLast c = some l := by
  cases c with
  | consB h t =>
      rw [show chainLast (IRNode.consB h t) =
        (match chainLast t with
         | some x => some x
         | none => some h) from rfl]
      cases chainLast t with
      | some x => exact ⟨x, rfl⟩
      | none => exact ⟨h, rfl⟩
  | nilB => simp [chainIsNil] at hn
  | noneB => simp [wfB] at hw
  | someB b => simp [wfB] at hw
  | basic i e o k => simp [wfB] at hw
  | ifS i o tb fb => simp [wfB] at hw


set_option maxHeartbeats 1000000 in
/-- Accounting of the normalization and hoist phase on one well-formed
if-statement: the result is well-formed, the queued payloads are well-formed
statements, no erasure is queued, the statements of the result plus the
queued payloads plus one per queued insertion never exceed the statements of
the input, and with no edits the statement ids are untouched. -/
theorem hoistIfNode_spec (O : Oracles) (nd : IRNode) (hw : wfS nd = true) :
    wfS (hoistIfNode O nd).node = true ∧
    wfQ (hoistIfNode O nd).edits = true ∧
    victims (hoistIfNode O nd).edits = [] ∧
    size (hoistIfNode O nd).node + plsSum (hoistIfNode O nd).edits +
      insCount (hoistIfNode O nd).edits ≤ size nd ∧
    ((hoistIfNode O nd).edits = [] → idsOf (hoistIfNode O nd).node = idsOf nd) := by
  cases nd with
  | noneB => simp [wfS] at hw
  | someB b => simp [wfS] at hw
  | nilB => simp [wfS] at hw
  | consB a b => simp [wfS] at hw
  | basic i e o k =>
      exact ⟨hw, by simp [hoistIfNode, wfQ], by simp [hoistIfNode, victims],
        by simp [hoistIfNode, plsSum, insCount], fun _ => rfl⟩
  | ifS i o tb fb =>
      rw [wfS_ifS, Bool.and_eq_true] at hw
      obtain ⟨hwtb, hwfb⟩ := hw
      -- a helper for the arms where at least one branch is not a
      -- present-and-non-empty block: no hoist, only normalization
      have trivialArm : ∀ tb1 fb1 : IRNode,
          hoistIfNode O (.ifS i o tb fb) =
            ⟨.ifS i o tb1 fb1, [], false, false⟩ →
          normBranch tb = tb1 → normBranch fb = fb1 →
          wfS (hoistIfNode O (.ifS i o tb fb)).node = true ∧
          wfQ (hoistIfNode O (.ifS i o tb fb)).edits = true ∧
          victims (hoistIfNode O (.ifS i o tb fb)).edits = [] ∧
          size (hoistIfNode O (.ifS i o tb fb)).node +
            plsSum (hoistIfNode O (.ifS i o tb fb)).edits +
            insCount (hoistIfNode O (.ifS i o tb fb)).edits ≤
            size (.ifS i o tb fb) ∧
          ((hoistIfNode O (.ifS i o tb fb)).edits = [] →
            idsOf (hoistIfNode O (.ifS i o tb fb)).node =
              idsOf (.ifS i o tb fb)) := by
        intro tb1 fb1 heq h1 h2
        subst h1
        subst h2
        rw [heq]
        refine ⟨?_, rfl, rfl, ?_, fun _ => ?_⟩
        · rw [wfS_ifS, Bool.and_eq_true]
          exact ⟨wfOB_normBranch tb hwtb, wfOB_normBranch fb hwfb⟩
        · simp only [size, plsSum, insCount, size_normBranch]
          omega
        · simp only [idsOf, idsOf_normBranch]
      cases tb with
      | basic a b c d => simp [wfOB] at hwtb
      | ifS a b c d => simp [wfOB] at hwtb
      | nilB => simp [wfOB] at hwtb
      | consB a b => simp [wfOB] at hwtb
      | noneB =>
          cases fb with
          | noneB => exact trivialArm _ _ rfl rfl rfl
          | basic a b c d => simp [wfOB] at hwfb
          | ifS a b c d => simp [wfOB] at hwfb
          | nilB => simp [wfOB] at hwfb
          | consB a b => simp [wfOB] at hwfb
          | someB fc =>
              cases fc with
              | nilB => exact trivialArm _ _ rfl rfl rfl
              | consB fh ftl => exact trivialArm _ _ rfl rfl rfl
              | noneB => simp [wfOB, wfB] at hwfb
              | someB x => simp [wfOB, wfB] at hwfb
              | basic a b c d => simp [wfOB, wfB] at hwfb
              | ifS a b c d => simp [wfOB, wfB] at hwfb
      | someB tc =>
          cases tc with
          | noneB => simp [wfOB, wfB] at hwtb
          | someB x => simp [wfOB, wfB] at hwtb
          | basic a b c d => simp [wfOB, wfB] at hwtb
          | ifS a b c d => simp [wfOB, wfB] at hwtb
          | nilB =>
              cases fb with
              | noneB => exact trivialArm _ _ rfl rfl rfl
              | basic a b c d => simp [wfOB] at hwfb
              | ifS a b c d => simp [wfOB] at hwfb
              | nilB => simp [wfOB] at hwfb
              | consB a b => simp [wfOB] at hwfb
              | someB fc =>
                  cases fc with
                  | nilB => exact trivialArm _ _ rfl rfl rfl
                  | consB fh ftl => exact trivialArm _ _ rfl rfl rfl
                  | noneB => simp [wfOB, wfB] at hwfb
                  | someB x => simp [wfOB, wfB] at hwfb
                  | basic a b c d => simp [wfOB, wfB] at hwfb
                  | ifS a b c d => simp [wfOB, wfB] at hwfb
          | consB th tt =>
              cases fb with
              | noneB => exact trivialArm _ _ rfl rfl rfl
              | basic a b c d => simp [wfOB] at hwfb
              | ifS a b c d => simp [wfOB] at hwfb
              | nilB => simp [wfOB] at hwfb
              | consB a b => simp [wfOB] at hwfb
              | someB fc =>
                  cases fc with
                  | nilB => exact trivialArm _ _ rfl rfl rfl
                  | noneB => simp [wfOB, wfB] at hwfb
                  | someB x => simp [wfOB, wfB] at hwfb
                  | basic a b c d => simp [wfOB, wfB] at hwfb
                  | ifS a b c d => simp [wfOB, wfB] at hwfb
                  | consB fh ftl =>
                      simp only [wfOB] at hwtb hwfb
                      rw [wfB_cons, Bool.and_eq_true] at hwtb hwfb
                      obtain ⟨hwth, hwtt⟩ := hwtb
                      obtain ⟨hwfh, hwftl⟩ := hwfb
                      have hsfh := size_pos_of_wfS fh hwfh
                      cases hLead : O.sameStmts th fh with
                      | true =>
                          cases hNil : (chainIsNil tt || chainIsNil (mapAllOps
                              (rewriteOps (nodeId fh) (nodeId th)) ftl)) with
                          | true =>
                              have heq : hoistIfNode O (.ifS i o
                                  (.someB (.consB th tt))
                                  (.someB (.consB fh ftl))) =
                                  ⟨.ifS i o (.someB tt) (.someB (mapAllOps
                                      (rewriteOps (nodeId fh) (nodeId th)) ftl)),
                                    [.insBefore i th], true, false⟩ := by
                                simp [hoistIfNode, normBranch, chainHead,
                                  chainTail, mapAllOps, hLead, hNil]
                              rw [heq]
                              refine ⟨?_, ?_, rfl, ?_, ?_⟩
                              · rw [wfS_ifS, Bool.and_eq_true]
                                refine ⟨hwtt, ?_⟩
                                simp only [wfOB, wfB_mapAllOps]
                                exact hwftl
                              · simp [wfQ, hwth]
                              · simp only [size, plsSum, insCount,
                                  size_mapAllOps]
                                omega
                              · intro hc
                                exact absurd hc (by simp)
                          | false =>
                              have hNil2 := hNil
                              rw [Bool.or_eq_false_iff] at hNil2
                              obtain ⟨ht0, hf0⟩ := hNil2
                              obtain ⟨tl, htl⟩ := chainLast_some tt hwtt ht0
                              obtain ⟨fl, hfl⟩ := chainLast_some _
                                (by rw [wfB_mapAllOps]; exact hwftl) hf0
                              cases hTrail : O.sameStmts tl fl with
                              | true =>
                                  have heq : hoistIfNode O (.ifS i o
                                      (.someB (.consB th tt))
                                      (.someB (.consB fh ftl))) =
                                      ⟨.ifS i o (.someB (chainDropLast tt))
                                          (.someB (chainDropLast (mapAllOps
                                            (rewriteOps (nodeId fl) (nodeId tl))
                                            (mapAllOps (rewriteOps (nodeId fh)
                                              (nodeId th)) ftl)))),
                                        [.insBefore i th, .insAfter i tl],
                                        true, true⟩ := by
                                    simp [hoistIfNode, normBranch, chainHead,
                                      chainTail, mapAllOps, hLead, hNil, htl,
                                      hfl, hTrail]
                                  have P := chain_last_split tt hwtt tl htl
                                  have Q := chain_last_split _
                                    (by rw [wfB_mapAllOps]; exact hwftl) fl hfl
                                  have hQ2 : chainLast (mapAllOps
                                      (rewriteOps (nodeId fl) (nodeId tl))
                                      (mapAllOps (rewriteOps (nodeId fh)
                                        (nodeId th)) ftl)) =
                                      some (mapAllOps (rewriteOps (nodeId fl)
                                        (nodeId tl)) fl) := by
                                    rw [chainLast_mapAllOps, hfl]; rfl
                                  have R := chain_last_split _
                                    (by rw [wfB_mapAllOps, wfB_mapAllOps]
                                        exact hwftl) _ hQ2
                                  have hsfl := size_pos_of_wfS fl Q.1
                                  rw [heq]
                                  refine ⟨?_, ?_, rfl, ?_, ?_⟩
                                  · rw [wfS_ifS, Bool.and_eq_true]
                                    exact ⟨P.2.2, R.2.2⟩
                                  · simp [wfQ, hwth, P.1]
                                  · have hr := R.2.1
                                    simp only [size_mapAllOps] at hr
                                    have hp := P.2.1
                                    simp only [size, plsSum, insCount]
                                    omega
                                  · intro hc
                                    exact absurd hc (by simp)
                              | false =>
                                  have heq : hoistIfNode O (.ifS i o
                                      (.someB (.consB th tt))
                                      (.someB (.consB fh ftl))) =
                                      ⟨.ifS i o (.someB tt) (.someB (mapAllOps
                                          (rewriteOps (nodeId fh) (nodeId th))
                                          ftl)),
                                        [.insBefore i th], true, false⟩ := by
                                    simp [hoistIfNode, normBranch, chainHead,
                                      chainTail, mapAllOps, hLead, hNil, htl,
                                      hfl, hTrail]
                                  rw [heq]
                                  refine ⟨?_, ?_, rfl, ?_, ?_⟩
                                  · rw [wfS_ifS, Bool.and_eq_true]
                                    refine ⟨hwtt, ?_⟩
                                    simp only [wfOB, wfB_mapAllOps]
                                    exact hwftl
                                  · simp [wfQ, hwth]
                                  · simp only [size, plsSum, insCount,
                                      size_mapAllOps]
                                    omega
                                  · intro hc
                                    exact absurd hc (by simp)
                      | false =>
                          have hwtc : wfB (.consB th tt) = true := by
                            rw [wfB_cons, Bool.and_eq_true]; exact ⟨hwth, hwtt⟩
                          have hwfc : wfB (.consB fh ftl) = true := by
                            rw [wfB_cons, Bool.and_eq_true]; exact ⟨hwfh, hwftl⟩
                          obtain ⟨tl, htl⟩ :=
                            chainLast_some (.consB th tt) hwtc rfl
                          obtain ⟨fl, hfl⟩ :=
                            chainLast_some (.consB fh ftl) hwfc rfl
                          cases hTrail : O.sameStmts tl fl with
                          | true =>
                              have heq : hoistIfNode O (.ifS i o
                                  (.someB (.consB th tt))
                                  (.someB (.consB fh ftl))) =
                                  ⟨.ifS i o
                                      (.someB (chainDropLast (.consB th tt)))
                                      (.someB (chainDropLast (mapAllOps
                                        (rewriteOps (nodeId fl) (nodeId tl))
                                        (.consB fh ftl)))),
                                    [.insAfter i tl], false, true⟩ := by
                                simp [hoistIfNode, normBranch, chainHead,
                                  hLead, htl, hfl, hTrail]
                              have P := chain_last_split _ hwtc tl htl
                              have Q := chain_last_split _ hwfc fl hfl
                              have hQ2 : chainLast (mapAllOps
                                  (rewriteOps (nodeId fl) (nodeId tl))
                                  (.consB fh ftl)) =
                                  some (mapAllOps (rewriteOps (nodeId fl)
                                    (nodeId tl)) fl) := by
                                rw [chainLast_mapAllOps, hfl]; rfl
                              have R := chain_last_split _
                                (by rw [wfB_mapAllOps]; exact hwfc) _ hQ2
                              have hsfl := size_pos_of_wfS fl Q.1
                              rw [heq]
                              refine ⟨?_, ?_, rfl, ?_, ?_⟩
                              · rw [wfS_ifS, Bool.and_eq_true]
                                exact ⟨P.2.2, R.2.2⟩
                              · simp [wfQ, P.1]
                              · have hr := R.2.1
                                simp only [size_mapAllOps] at hr
                                have hp := P.2.1
                                simp only [size, plsSum, insCount]
                                simp only [size] at hp hr
                                omega
                              · intro hc
                                exact absurd hc (by simp)
                          | false =>
                              have heq : hoistIfNode O (.ifS i o
                                  (.someB (.consB th tt))
                                  (.someB (.consB fh ftl))) =
                                  ⟨.ifS i o (.someB (.consB th tt))
                                      (.someB (.consB fh ftl)),
                                    [], false, false⟩ := by
                                simp [hoistIfNode, normBranch, chainHead,
                                  hLead, htl, hfl, hTrail]
                              rw [heq]
                              refine ⟨?_, rfl, rfl, ?_, fun _ => rfl⟩
                              · rw [wfS_ifS, Bool.and_eq_true]
                                exact ⟨hwtc, hwfc⟩
                              · simp [plsSum, insCount]

theorem findStmt_mem (i : Nat) : ∀ (n s : IRNode),
    findStmt n i = some s → i ∈ idsOf n := by
  intro n
  induction n with
  | noneB => intro s hf; simp [findStmt] at hf
  | nilB => intro s hf; simp [findStmt] at hf
  | someB b ih =>
      intro s hf
      rw [show findStmt (.someB b) i = findStmt b i from rfl] at hf
      exact ih s hf
  | consB h t ihh iht =>
      intro s hf
      rw [show findStmt (.consB h t) i =
        (match findStmt h i with
         | some x => some x
         | none => findStmt t i) from rfl] at hf
      rw [show idsOf (.consB h t) = idsOf h ++ idsOf t from rfl]
      cases hh : findStmt h i with
      | some x =>
          exact List.mem_append_left _ (ihh x hh)
      | none =>
          rw [hh] at hf
          exact List.mem_append_right _ (iht s hf)
  | basic j e o k =>
      intro s hf
      rw [show findStmt (.basic j e o k) i =
        (if j = i then some (.basic j e o k) else none) from rfl] at hf
      split at hf
      · simp [idsOf]; omega
      · simp at hf
  | ifS j o tb fb ihtb ihfb =>
      intro s hf
      rw [show findStmt (.ifS j o tb fb) i =
        (if j = i then some (.ifS j o tb fb)
         else
           match findStmt tb i with
           | some x => some x
           | none => findStmt fb i) from rfl] at hf
      rw [show idsOf (.ifS j o tb fb) = j :: (idsOf tb ++ idsOf fb) from rfl]
      split at hf
      · simp; omega
      · cases htb : findStmt tb i with
        | some x =>
            exact List.mem_cons_of_mem _ (List.mem_append_left _ (ihtb x htb))
        | none =>
            rw [htb] at hf
            exact List.mem_cons_of_mem _ (List.mem_append_right _ (ihfb s hf))

theorem scanEntries_spec (O : Oracles) (root s : IRNode) (k : KindKey) :
    ∀ (es : List (KindKey × Nat)) (pid : Nat) (upd : IRNode),
      scanEntries O root s k es = some (pid, upd) →
      ∃ c, findStmt root pid = some c ∧ upd = (cseEliminable O s c).2 := by
  intro es
  induction es with
  | nil => intro pid upd h; simp [scanEntries] at h
  | cons e rest ih =>
      intro pid upd h
      obtain ⟨k2, cid⟩ := e
      rw [show scanEntries O root s k ((k2, cid) :: rest) =
        (if k2 = k then
          match findStmt root cid with
          | some c =>
              if (cseEliminable O s c).1 then some (cid, (cseEliminable O s c).2)
              else scanEntries O root s k rest
          | none => scanEntries O root s k rest
         else scanEntries O root s k rest) from rfl] at h
      split at h
      · cases hc : findStmt root cid with
        | some c =>
            rw [hc] at h
            simp only [] at h
            split at h
            · simp at h
              obtain ⟨h1, h2⟩ := h
              subst h1
              exact ⟨c, hc, h2.symm⟩
            · exact ih pid upd h
        | none =>
            rw [hc] at h
            exact ih pid upd h
      · exact ih pid upd h

theorem scanScopes_spec (O : Oracles) (root s : IRNode) (k : KindKey) :
    ∀ (scs : List (List (KindKey × Nat))) (pid : Nat) (upd : IRNode),
      scanScopes O root s k scs = some (pid, upd) →
      ∃ c, findStmt root pid = some c ∧ upd = (cseEliminable O s c).2 := by
  intro scs
  induction scs with
  | nil => intro pid upd h; simp [scanScopes] at h
  | cons sc rest ih =>
      intro pid upd h
      rw [show scanScopes O root s k (sc :: rest) =
        (match scanEntries O root s k sc with
         | some r => some r
         | none => scanScopes O root s k rest) from rfl] at h
      cases he : scanEntries O root s k sc with
      | some r =>
          rw [he] at h
          simp at h
          subst h
          exact scanEntries_spec O root s k sc pid upd he
      | none =>
          rw [he] at h
          exact ih pid upd h

theorem insCount_zero_plsSum (q : List EditOp) :
    insCount q = 0 → plsSum q = 0 := by
  induction q with
  | nil => intro _; rfl
  | cons op r ih =>
      cases op with
      | insBefore t p => intro h; simp [insCount] at h
      | insAfter t p => intro h; simp [insCount] at h
      | eraseOp v =>
          intro h
          rw [show insCount (.eraseOp v :: r) = insCount r from rfl] at h
          rw [show plsSum (.eraseOp v :: r) = plsSum r from rfl]
          exact ih h

theorem queue_nil_of_counts (q : List EditOp) :
    insCount q = 0 → victims q = [] → q = [] := by
  cases q with
  | nil => intro _ _; rfl
  | cons op r =>
      cases op with
      | insBefore t p => intro h _; simp [insCount] at h
      | insAfter t p => intro h _; simp [insCount] at h
      | eraseOp v => intro _ h; simp [victims] at h

theorem insertBeforeFirst_size (t : Nat) (p : IRNode) :
    ∀ n, size (insertBeforeFirst t p n).1 ≤ size n + size p := by
  intro n
  induction n with
  | noneB => simp [insertBeforeFirst, size]
  | nilB => simp [insertBeforeFirst, size]
  | basic j e o k => simp [insertBeforeFirst, size]
  | someB b ih =>
      rw [show (insertBeforeFirst t p (.someB b)).1 =
        .someB (insertBeforeFirst t p b).1 from rfl]
      rw [show size (IRNode.someB (insertBeforeFirst t p b).1) =
        size (insertBeforeFirst t p b).1 from rfl]
      rw [show size (IRNode.someB b) = size b from rfl]
      exact ih
  | consB h t2 ihh iht =>
      rw [show insertBeforeFirst t p (.consB h t2) =
        (if stmtId h = some t then (.consB p (.consB h t2), true)
         else if (insertBeforeFirst t p h).2 then
           (.consB (insertBeforeFirst t p h).1 t2, true)
         else (.consB h (insertBeforeFirst t p t2).1,
               (insertBeforeFirst t p t2).2)) from rfl]
      split
      · simp [size]; omega
      · split
        · simp only [size]; omega
        · simp only [size]; omega
  | ifS j o tb fb ihtb ihfb =>
      rw [show insertBeforeFirst t p (.ifS j o tb fb) =
        (if (insertBeforeFirst t p tb).2 then
           (.ifS j o (insertBeforeFirst t p tb).1 fb, true)
         else (.ifS j o tb (insertBeforeFirst t p fb).1,
               (insertBeforeFirst t p fb).2)) from rfl]
      split
      · simp only [size]; omega
      · simp only [size]; omega

theorem insertAfterFirst_size (t : Nat) (p : IRNode) :
    ∀ n, size (insertAfterFirst t p n).1 ≤ size n + size p := by
  intro n
  induction n with
  | noneB => simp [insertAfterFirst, size]
  | nilB => simp [insertAfterFirst, size]
  | basic j e o k => simp [insertAfterFirst, size]
  | someB b ih =>
      rw [show (insertAfterFirst t p (.someB b)).1 =
        .someB (insertAfterFirst t p b).1 from rfl]
      rw [show size (IRNode.someB (insertAfterFirst t p b).1) =
        size (insertAfterFirst t p b).1 from rfl]
      rw [show size (IRNode.someB b) = size b from rfl]
      exact ih
  | consB h t2 ihh iht =>
      rw [show insertAfterFirst t p (.consB h t2) =
        (if stmtId h = some t then (.consB h (.consB p t2), true)
         else if (insertAfterFirst t p h).2 then
           (.consB (insertAfterFirst t p h).1 t2, true)
         else (.consB h (insertAfterFirst t p t2).1,
               (insertAfterFirst t p t2).2)) from rfl]
      split
      · simp [size]; omega
      · split
        · simp only [size]; omega
        · simp only [size]; omega
  | ifS j o tb fb ihtb ihfb =>
      rw [show insertAfterFirst t p (.ifS j o tb fb) =
        (if (insertAfterFirst t p tb).2 then
           (.ifS j o (insertAfterFirst t p tb).1 fb, true)
         else (.ifS j o tb (insertAfterFirst t p fb).1,
               (insertAfterFirst t p fb).2)) from rfl]
      split
      · simp only [size]; omega
      · simp only [size]; omega

theorem eraseFirst_size (v : Nat) :
    ∀ n, size (eraseFirst v n).1 ≤ size n := by
  intro n
  induction n with
  | noneB => simp [eraseFirst]
  | nilB => simp [eraseFirst]
  | basic j e o k => simp [eraseFirst]
  | someB b ih =>
      rw [show (eraseFirst v (.someB b)).1 =
        .someB (eraseFirst v b).1 from rfl]
      rw [show size (IRNode.someB (eraseFirst v b).1) =
        size (eraseFirst v b).1 from rfl]
      rw [show size (IRNode.someB b) = size b from rfl]
      exact ih
  | consB h t2 ihh iht =>
      rw [show eraseFirst v (.consB h t2) =
        (if stmtId h = some v then (t2, true)
         else if (eraseFirst v h).2 then
           (.consB (eraseFirst v h).1 t2, true)
         else (.consB h (eraseFirst v t2).1,
               (eraseFirst v t2).2)) from rfl]
      split
      · simp only [size]; omega
      · split
        · simp only [size]; omega
        · simp only [size]; omega
  | ifS j o tb fb ihtb ihfb =>
      rw [show eraseFirst v (.ifS j o tb fb) =
        (if (eraseFirst v tb).2 then
           (.ifS j o (eraseFirst v tb).1 fb, true)
         else (.ifS j o tb (eraseFirst v fb).1,
               (eraseFirst v fb).2)) from rfl]
      split
      · simp only [size]; omega
      · simp only [size]; omega

theorem insertBeforeFirst_wf (t : Nat) (p : IRNode) (hp : wfS p = true) :
    ∀ n, (wfB n = true → wfB (insertBeforeFirst t p n).1 = true) ∧
      (wfS n = true → wfS (insertBeforeFirst t p n).1 = true) ∧
      (wfOB n = true → wfOB (insertBeforeFirst t p n).1 = true) := by
  intro n
  induction n with
  | noneB => exact ⟨fun h => h, fun h => h, fun h => h⟩
  | nilB => exact ⟨fun h => h, fun h => h, fun h => h⟩
  | basic j e o k => exact ⟨fun h => h, fun h => h, fun h => h⟩
  | someB b ih =>
      refine ⟨fun h => by simp [wfB] at h, fun h => by simp [wfS] at h, ?_⟩
      intro h
      rw [show (insertBeforeFirst t p (.someB b)).1 =
        .someB (insertBeforeFirst t p b).1 from rfl]
      rw [show wfOB (IRNode.someB (insertBeforeFirst t p b).1) =
        wfB (insertBeforeFirst t p b).1 from rfl]
      rw [show wfOB (IRNode.someB b) = wfB b from rfl] at h
      exact ih.1 h
  | consB h t2 ihh iht =>
      refine ⟨?_, fun hx => by simp [wfS] at hx, fun hx => by simp [wfOB] at hx⟩
      intro hw
      rw [wfB_cons, Bool.and_eq_true] at hw
      rw [show insertBeforeFirst t p (.consB h t2) =
        (if stmtId h = some t then (.consB p (.consB h t2), true)
         else if (insertBeforeFirst t p h).2 then
           (.consB (insertBeforeFirst t p h).1 t2, true)
         else (.consB h (insertBeforeFirst t p t2).1,
               (insertBeforeFirst t p t2).2)) from rfl]
      split
      · simp only []
        rw [wfB_cons, wfB_cons]
        simp [hp, hw.1, hw.2]
      · split
        · simp only []
          rw [wfB_cons, Bool.and_eq_true]
          exact ⟨ihh.2.1 hw.1, hw.2⟩
        · simp only []
          rw [wfB_cons, Bool.and_eq_true]
          exact ⟨hw.1, iht.1 hw.2⟩
  | ifS j o tb fb ihtb ihfb =>
      refine ⟨fun hx => by simp [wfB] at hx, ?_, fun hx => by simp [wfOB] at hx⟩
      intro hw
      rw [wfS_ifS, Bool.and_eq_true] at hw
      rw [show insertBeforeFirst t p (.ifS j o tb fb) =
        (if (insertBeforeFirst t p tb).2 then
           (.ifS j o (insertBeforeFirst t p tb).1 fb, true)
         else (.ifS j o tb (insertBeforeFirst t p fb).1,
               (insertBeforeFirst t p fb).2)) from rfl]
      split
      · simp only []
        rw [wfS_ifS, Bool.and_eq_true]
        exact ⟨ihtb.2.2 hw.1, hw.2⟩
      · simp only []
        rw [wfS_ifS, Bool.and_eq_true]
        exact ⟨hw.1, ihfb.2.2 hw.2⟩

theorem insertAfterFirst_wf (t : Nat) (p : IRNode) (hp : wfS p = true) :
    ∀ n, (wfB n = true → wfB (insertAfterFirst t p n).1 = true) ∧
      (wfS n = true → wfS (insertAfterFirst t p n).1 = true) ∧
      (wfOB n = true → wfOB (insertAfterFirst t p n).1 = true) := by
  intro n
  induction n with
  | noneB => exact ⟨fun h => h, fun h => h, fun h => h⟩
  | nilB => exact ⟨fun h => h, fun h => h, fun h => h⟩
  | basic j e o k => exact ⟨fun h => h, fun h => h, fun h => h⟩
  | someB b ih =>
      refine ⟨fun h => by simp [wfB] at h, fun h => by simp [wfS] at h, ?_⟩
      intro h
      rw [show (insertAfterFirst t p (.someB b)).1 =
        .someB (insertAfterFirst t p b).1 from rfl]
      rw [show wfOB (IRNode.someB (insertAfterFirst t p b).1) =
        wfB (insertAfterFirst t p b).1 from rfl]
      rw [show wfOB (IRNode.someB b) = wfB b from rfl] at h
      exact ih.1 h
  | consB h t2 ihh iht =>
      refine ⟨?_, fun hx => by simp [wfS] at hx, fun hx => by simp [wfOB] at hx⟩
      intro hw
      rw [wfB_cons, Bool.and_eq_true] at hw
      rw [show insertAfterFirst t p (.consB h t2) =
        (if stmtId h = some t then (.consB h (.consB p t2), true)
         else if (insertAfterFirst t p h).2 then
           (.consB (insertAfterFirst t p h).1 t2, true)
         else (.consB h (insertAfterFirst t p t2).1,
               (insertAfterFirst t p t2).2)) from rfl]
      split
      · simp only []
        rw [wfB_cons, wfB_cons]
        simp [hp, hw.1, hw.2]
      · split
        · simp only []
          rw [wfB_cons, Bool.and_eq_true]
          exact ⟨ihh.2.1 hw.1, hw.2⟩
        · simp only []
          rw [wfB_cons, Bool.and_eq_true]
          exact ⟨hw.1, iht.1 hw.2⟩
  | ifS j o tb fb ihtb ihfb =>
      refine ⟨fun hx => by simp [wfB] at hx, ?_, fun hx => by simp [wfOB] at hx⟩
      intro hw
      rw [wfS_ifS, Bool.and_eq_true] at hw
      rw [show insertAfterFirst t p (.ifS j o tb fb) =
        (if (insertAfterFirst t p tb).2 then
           (.ifS j o (insertAfterFirst t p tb).1 fb, true)
         else (.ifS j o tb (insertAfterFirst t p fb).1,
               (insertAfterFirst t p fb).2)) from rfl]
      split
      · simp only []
        rw [wfS_ifS, Bool.and_eq_true]
        exact ⟨ihtb.2.2 hw.1, hw.2⟩
      · simp only []
        rw [wfS_ifS, Bool.and_eq_true]
        exact ⟨hw.1, ihfb.2.2 hw.2⟩

theorem eraseFirst_spec (v : Nat) :
    ∀ n, ((eraseFirst v n).2 = false → (eraseFirst v n).1 = n) ∧
      (wfB n = true → wfB (eraseFirst v n).1 = true ∧
        ((eraseFirst v n).2 = true → size (eraseFirst v n).1 < size n) ∧
        (v ∈ idsOf n → (eraseFirst v n).2 = true)) ∧
      (wfS n = true → wfS (eraseFirst v n).1 = true ∧
        ((eraseFirst v n).2 = true → size (eraseFirst v n).1 < size n) ∧
        (v ∈ idsOf n → stmtId n ≠ some v → (eraseFirst v n).2 = true)) ∧
      (wfOB n = true → wfOB (eraseFirst v n).1 = true ∧
        ((eraseFirst v n).2 = true → size (eraseFirst v n).1 < size n) ∧
        (v ∈ idsOf n → (eraseFirst v n).2 = true)) := by
  intro n
  induction n with
  | noneB =>
      refine ⟨fun _ => rfl, fun h => by simp [wfB] at h,
        fun h => by simp [wfS] at h, fun _ => ⟨rfl, ?_, ?_⟩⟩
      · intro h; simp [eraseFirst] at h
      · intro h; simp [idsOf] at h
  | nilB =>
      refine ⟨fun _ => rfl, fun _ => ⟨rfl, ?_, ?_⟩,
        fun h => by simp [wfS] at h, fun h => by simp [wfOB] at h⟩
      · intro h; simp [eraseFirst] at h
      · intro h; simp [idsOf] at h
  | basic j e o k =>
      refine ⟨fun _ => rfl, fun h => by simp [wfB] at h,
        fun _ => ⟨rfl, ?_, ?_⟩, fun h => by simp [wfOB] at h⟩
      · intro h; simp [eraseFirst] at h
      · intro h1 h2
        rw [show idsOf (.basic j e o k) = [j] from rfl] at h1
        simp at h1
        subst h1
        exact absurd rfl h2
  | someB b ih =>
      have hred : eraseFirst v (.someB b) =
          (.someB (eraseFirst v b).1, (eraseFirst v b).2) := rfl
      refine ⟨?_, fun h => by simp [wfB] at h, fun h => by simp [wfS] at h, ?_⟩
      · intro h
        rw [hred] at h ⊢
        simp only [] at h ⊢
        rw [ih.1 h]
      · intro h
        rw [show wfOB (IRNode.someB b) = wfB b from rfl] at h
        have H := ih.2.1 h
        rw [hred]
        refine ⟨H.1, ?_, ?_⟩
        · intro hf
          rw [show size (IRNode.someB (eraseFirst v b).1) =
            size (eraseFirst v b).1 from rfl]
          rw [show size (IRNode.someB b) = size b from rfl]
          exact H.2.1 hf
        · intro hm
          rw [show idsOf (IRNode.someB b) = idsOf b from rfl] at hm
          exact H.2.2 hm
  | consB h t2 ihh iht =>
      have hred : eraseFirst v (.consB h t2) =
          (if stmtId h = some v then (t2, true)
           else if (eraseFirst v h).2 then
             (.consB (eraseFirst v h).1 t2, true)
           else (.consB h (eraseFirst v t2).1,
                 (eraseFirst v t2).2)) := rfl
      refine ⟨?_, ?_, fun hx => by simp [wfS] at hx, fun hx => by simp [wfOB] at hx⟩
      · rw [hred]
        split
        · intro hf; simp at hf
        · split
          · intro hf; simp at hf
          · intro hf
            simp only [] at hf ⊢
            rw [iht.1 hf]
      · intro hw
        rw [wfB_cons, Bool.and_eq_true] at hw
        rw [hred]
        split
        · rename_i hid
          refine ⟨hw.2, ?_, fun _ => rfl⟩
          intro _
          have := size_pos_of_wfS h hw.1
          simp only [size]
          omega
        · rename_i hid
          split
          · rename_i hflag
            have H := ihh.2.2.1 hw.1
            refine ⟨?_, ?_, fun _ => rfl⟩
            · rw [wfB_cons, Bool.and_eq_true]
              exact ⟨H.1, hw.2⟩
            · intro _
              have := H.2.1 hflag
              simp only [size]
              omega
          · rename_i hflag
            have hflag2 : (eraseFirst v h).2 = false := by
              cases hq : (eraseFirst v h).2
              · rfl
              · exact absurd hq hflag
            have H := iht.2.1 hw.2
            refine ⟨?_, ?_, ?_⟩
            · rw [wfB_cons, Bool.and_eq_true]
              exact ⟨hw.1, H.1⟩
            · intro hf
              have := H.2.1 hf
              simp only [size]
              omega
            · intro hm
              rw [show idsOf (.consB h t2) = idsOf h ++ idsOf t2 from rfl] at hm
              rw [List.mem_append] at hm
              cases hm with
              | inl hmh =>
                  have := ihh.2.2.1 hw.1
                  have hc := this.2.2 hmh (by
                    intro hEq
                    exact hid hEq)
                  rw [hc] at hflag2
                  simp at hflag2
              | inr hmt => exact H.2.2 hmt
  | ifS j o tb fb ihtb ihfb =>
      have hred : eraseFirst v (.ifS j o tb fb) =
          (if (eraseFirst v tb).2 then
             (.ifS j o (eraseFirst v tb).1 fb, true)
           else (.ifS j o tb (eraseFirst v fb).1,
                 (eraseFirst v fb).2)) := rfl
      refine ⟨?_, fun hx => by simp [wfB] at hx, ?_, fun hx => by simp [wfOB] at hx⟩
      · rw [hred]
        split
        · intro hf; simp at hf
        · intro hf
          simp only [] at hf ⊢
          rw [ihfb.1 hf]
      · intro hw
        rw [wfS_ifS, Bool.and_eq_true] at hw
        rw [hred]
        split
        · rename_i hflag
          have H := ihtb.2.2.2 hw.1
          refine ⟨?_, ?_, fun _ _ => rfl⟩
          · rw [wfS_ifS, Bool.and_eq_true]
            exact ⟨H.1, hw.2⟩
          · intro _
            have := H.2.1 hflag
            simp only [size]
            omega
        · rename_i hflag
          have hflag2 : (eraseFirst v tb).2 = false := by
            cases hq : (eraseFirst v tb).2
            · rfl
            · exact absurd hq hflag
          have H := ihfb.2.2.2 hw.2
          refine ⟨?_, ?_, ?_⟩
          · rw [wfS_ifS, Bool.and_eq_true]
            exact ⟨hw.1, H.1⟩
          · intro hf
            have := H.2.1 hf
            simp only [size]
            omega
          · intro hm hne
            rw [show idsOf (.ifS j o tb fb) =
              j :: (idsOf tb ++ idsOf fb) from rfl] at hm
            have hvj : v ≠ j := by
              intro hEq
              subst hEq
              exact hne rfl
            rw [List.mem_cons] at hm
            cases hm with
            | inl hh => exact absurd hh hvj
            | inr hm2 =>
                rw [List.mem_append] at hm2
                cases hm2 with
                | inl hmt =>
                    have hc := (ihtb.2.2.2 hw.1).2.2 hmt
                    rw [hc] at hflag2
                    simp at hflag2
                | inr hmf => exact H.2.2 hmf

/-- Invariant carried by the walker through one traversal: the live tree is
a well-formed block, the queued payloads are well-formed, the statements of
the live tree plus the queued payloads plus one per queued insertion stay
bounded by the traversal's starting statement count, and as long as no
insertion has been queued the tree's statement ids are untouched and every
queued erasure victim is one of them. -/
def WalkInv (B : Nat) (ids0 : List Nat) (st : WalkSt) : Prop :=
  wfB st.root = true ∧ wfQ st.queue = true ∧
  size st.root + plsSum st.queue + insCount st.queue ≤ B ∧
  (insCount st.queue = 0 →
    idsOf st.root = ids0 ∧ ∀ v ∈ victims st.queue, v ∈ ids0)

theorem visitGenericStep_inv (O : Oracles) (B : Nat) (ids0 : List Nat)
    (st : WalkSt) (sid : Nat) (h : WalkInv B ids0 st) :
    WalkInv B ids0 (visitGenericStep O st sid) ∧
    insCount st.queue ≤ insCount (visitGenericStep O st sid).queue := by
  obtain ⟨hw, hq, hm, hc⟩ := h
  unfold visitGenericStep
  cases hf : findStmt st.root sid with
  | none => exact ⟨⟨hw, hq, hm, hc⟩, le_rfl⟩
  | some s =>
      simp only []
      split
      · exact ⟨⟨hw, hq, hm, hc⟩, le_rfl⟩
      · split
        · exact ⟨⟨hw, hq, hm, hc⟩, le_rfl⟩
        · split
          · rename_i pid prevUpd hscan
            obtain ⟨c, hfc, hupd⟩ := scanScopes_spec O st.root s (stmtKey s)
              st.scopes.reverse pid prevUpd hscan
            have hcse := cseEliminable_prev O s c
            have hwc : wfS c = true := findStmt_wfS st.root pid c hw hfc
            have hwupd : wfS prevUpd = true := by
              rw [hupd]; exact hcse.2.2 hwc
            have hset := setStmt_spec st.root pid prevUpd c hfc
            have hsz1 : size (setStmt st.root pid prevUpd).1 = size st.root := by
              have h1 := hset.2.1
              have h2 : size prevUpd = size c := by rw [hupd]; exact hcse.2.1
              omega
            have hids1 : idsOf (setStmt st.root pid prevUpd).1 =
                idsOf st.root :=
              hset.2.2 (by rw [hupd]; exact hcse.1)
            have hwb1 : wfB (setStmt st.root pid prevUpd).1 = true :=
              setStmt_wfB st.root pid prevUpd hwupd hw
            refine ⟨⟨?_, ?_, ?_, ?_⟩, ?_⟩
            · show wfB (replaceUsages _ _ _) = true
              unfold replaceUsages
              rw [wfB_mapAllOps]
              exact hwb1
            · show wfQ (st.queue.map (payloadRewrite sid pid) ++
                [.eraseOp sid]) = true
              rw [wfQ_append, wfQ_mapRewrite, Bool.and_eq_true]
              exact ⟨hq, rfl⟩
            · show size (replaceUsages _ _ _) +
                plsSum (st.queue.map (payloadRewrite sid pid) ++
                  [.eraseOp sid]) +
                insCount (st.queue.map (payloadRewrite sid pid) ++
                  [.eraseOp sid]) ≤ B
              unfold replaceUsages
              rw [size_mapAllOps, hsz1, plsSum_append, plsSum_mapRewrite,
                insCount_append, insCount_mapRewrite]
              simp only [plsSum, insCount]
              omega
            · intro h0
              rw [show (insCount (st.queue.map (payloadRewrite sid pid) ++
                  [.eraseOp sid])) = insCount st.queue by
                rw [insCount_append, insCount_mapRewrite]
                simp [insCount]] at h0
              obtain ⟨hid0, hv0⟩ := hc h0
              constructor
              · show idsOf (replaceUsages _ _ _) = ids0
                unfold replaceUsages
                rw [idsOf_mapAllOps, hids1]
                exact hid0
              · show ∀ v ∈ victims (st.queue.map (payloadRewrite sid pid) ++
                  [.eraseOp sid]), v ∈ ids0
                rw [victims_append, victims_mapRewrite]
                intro v hv
                rw [List.mem_append] at hv
                cases hv with
                | inl hvq => exact hv0 v hvq
                | inr hvs =>
                    simp [victims] at hvs
                    subst hvs
                    rw [← hid0]
                    exact findStmt_mem v st.root s hf
            · show insCount st.queue ≤
                insCount (st.queue.map (payloadRewrite sid pid) ++
                  [.eraseOp sid])
              rw [insCount_append, insCount_mapRewrite]
              simp [insCount]
          · exact ⟨⟨hw, hq, hm, hc⟩, le_rfl⟩

theorem ifHoistStep_inv (O : Oracles) (B : Nat) (ids0 : List Nat)
    (st : WalkSt) (ifid : Nat) (h : WalkInv B ids0 st) :
    WalkInv B ids0 (ifHoistStep O st ifid).1 ∧
    insCount st.queue ≤ insCount (ifHoistStep O st ifid).1.queue := by
  obtain ⟨hw, hq, hm, hc⟩ := h
  unfold ifHoistStep
  cases hf : findStmt st.root ifid with
  | none => exact ⟨⟨hw, hq, hm, hc⟩, le_rfl⟩
  | some nd =>
      cases nd with
      | noneB => exact ⟨⟨hw, hq, hm, hc⟩, le_rfl⟩
      | someB b => exact ⟨⟨hw, hq, hm, hc⟩, le_rfl⟩
      | nilB => exact ⟨⟨hw, hq, hm, hc⟩, le_rfl⟩
      | consB a b => exact ⟨⟨hw, hq, hm, hc⟩, le_rfl⟩
      | basic i e o k => exact ⟨⟨hw, hq, hm, hc⟩, le_rfl⟩
      | ifS i o tb fb =>
          simp only []
          have hwnd : wfS (.ifS i o tb fb) = true :=
            findStmt_wfS st.root ifid _ hw hf
          have H := hoistIfNode_spec O (.ifS i o tb fb) hwnd
          have hset := setStmt_spec st.root ifid
            (hoistIfNode O (.ifS i o tb fb)).node _ hf
          have hnd1 : 1 ≤ size (IRNode.ifS i o tb fb) :=
            size_pos_of_wfS _ hwnd
          refine ⟨⟨?_, ?_, ?_, ?_⟩, ?_⟩
          · exact setStmt_wfB _ _ _ H.1 hw
          · show wfQ (st.queue ++ (hoistIfNode O (.ifS i o tb fb)).edits) = true
            rw [wfQ_append, Bool.and_eq_true]
            exact ⟨hq, H.2.1⟩
          · show size (setStmt st.root ifid
                (hoistIfNode O (.ifS i o tb fb)).node).1 +
              plsSum (st.queue ++ (hoistIfNode O (.ifS i o tb fb)).edits) +
              insCount (st.queue ++ (hoistIfNode O (.ifS i o tb fb)).edits) ≤ B
            rw [plsSum_append, insCount_append]
            have h1 := hset.2.1
            have h2 := H.2.2.2.1
            omega
          · intro h0
            rw [show insCount (st.queue ++
                (hoistIfNode O (.ifS i o tb fb)).edits) =
                insCount st.queue +
                insCount (hoistIfNode O (.ifS i o tb fb)).edits from
              insCount_append ..] at h0
            have hq0 : insCount st.queue = 0 := by omega
            have he0 : insCount (hoistIfNode O (.ifS i o tb fb)).edits = 0 := by
              omega
            have hed : (hoistIfNode O (.ifS i o tb fb)).edits = [] :=
              queue_nil_of_counts _ he0 H.2.2.1
            obtain ⟨hid0, hv0⟩ := hc hq0
            constructor
            · show idsOf (setStmt st.root ifid
                (hoistIfNode O (.ifS i o tb fb)).node).1 = ids0
              rw [hset.2.2 (H.2.2.2.2 hed), hid0]
            · show ∀ v ∈ victims (st.queue ++
                (hoistIfNode O (.ifS i o tb fb)).edits), v ∈ ids0
              rw [victims_append, hed]
              simpa [victims] using hv0
          · show insCount st.queue ≤
              insCount (st.queue ++ (hoistIfNode O (.ifS i o tb fb)).edits)
            rw [insCount_append]
            omega

theorem walk_inv_aux (O : Oracles) (B : Nat) (ids0 : List Nat) :
    ∀ (k : Nat) (n : IRNode), msize n ≤ k → ∀ st : WalkSt,
      WalkInv B ids0 st →
      (WalkInv B ids0 (walkOne O st n) ∧
        insCount st.queue ≤ insCount (walkOne O st n).queue) ∧
      (∀ a b : Bool, WalkInv B ids0 (walkSeqG O st a b n) ∧
        insCount st.queue ≤ insCount (walkSeqG O st a b n).queue) := by
  intro k
  induction k with
  | zero =>
      intro n hn
      have := msize_pos n
      omega
  | succ k ih =>
      intro n hn st hst
      have hbr : ∀ (s : WalkSt) (a b : Bool) (br : IRNode), msize br ≤ k →
          WalkInv B ids0 s →
          WalkInv B ids0 (walkBr O s a b br) ∧
            insCount s.queue ≤ insCount (walkBr O s a b br).queue := by
        intro s a b br hm hs
        cases br with
        | someB tc =>
            rw [walkBr_someB]
            have htc : msize tc ≤ k := by
              simp [msize] at hm
              have := msize_pos tc
              omega
            have hps : WalkInv B ids0 (pushScope s) := hs
            exact (ih tc htc (pushScope s) hps).2 a b
        | noneB => rw [walkBr_noneB]; exact ⟨hs, le_rfl⟩
        | nilB => rw [walkBr_nilB]; exact ⟨hs, le_rfl⟩
        | consB x y => rw [walkBr_consB]; exact ⟨hs, le_rfl⟩
        | basic i e o kk => rw [walkBr_basic]; exact ⟨hs, le_rfl⟩
        | ifS i o tb fb => rw [walkBr_ifS]; exact ⟨hs, le_rfl⟩
      cases n with
      | noneB =>
          refine ⟨by rw [walkOne_noneB]; exact ⟨hst, le_rfl⟩, ?_⟩
          intro a b
          rw [walkSeqG_noneB]
          exact ⟨hst, le_rfl⟩
      | someB b =>
          refine ⟨by rw [walkOne_someB]; exact ⟨hst, le_rfl⟩, ?_⟩
          intro a b2
          rw [walkSeqG_someB]
          exact ⟨hst, le_rfl⟩
      | nilB =>
          refine ⟨by rw [walkOne_nilB]; exact ⟨hst, le_rfl⟩, ?_⟩
          intro a b
          rw [walkSeqG_nil]
          exact ⟨hst, le_rfl⟩
      | basic i e o kk =>
          refine ⟨?_, ?_⟩
          · rw [walkOne_basic]
            exact visitGenericStep_inv O B ids0 st i hst
          · intro a b
            rw [walkSeqG_basic]
            exact ⟨hst, le_rfl⟩
      | ifS i o tb fb =>
          have hmtb : msize tb ≤ k := by
            simp [msize] at hn
            have := msize_pos fb
            omega
          have hmfb : msize fb ≤ k := by
            simp [msize] at hn
            have := msize_pos tb
            omega
          refine ⟨?_, ?_⟩
          · rw [walkOne_ifS]
            simp only []
            have h1 := ifHoistStep_inv O B ids0 st i hst
            have hmid : WalkInv B ids0
                (if curTBpresent (ifHoistStep O st i).1.root i then
                  walkBr O (ifHoistStep O st i).1 (ifHoistStep O st i).2.1
                    (ifHoistStep O st i).2.2 tb
                else (ifHoistStep O st i).1) ∧
                insCount st.queue ≤ insCount
                  (if curTBpresent (ifHoistStep O st i).1.root i then
                    walkBr O (ifHoistStep O st i).1 (ifHoistStep O st i).2.1
                      (ifHoistStep O st i).2.2 tb
                  else (ifHoistStep O st i).1).queue := by
              split
              · have h2 := hbr (ifHoistStep O st i).1 (ifHoistStep O st i).2.1
                  (ifHoistStep O st i).2.2 tb hmtb h1.1
                exact ⟨h2.1, le_trans h1.2 h2.2⟩
              · exact h1
            set M := (if curTBpresent (ifHoistStep O st i).1.root i then
                walkBr O (ifHoistStep O st i).1 (ifHoistStep O st i).2.1
                  (ifHoistStep O st i).2.2 tb
              else (ifHoistStep O st i).1) with hM
            split
            · have h3 := hbr M (ifHoistStep O st i).2.1
                (ifHoistStep O st i).2.2 fb hmfb hmid.1
              exact ⟨h3.1, le_trans hmid.2 h3.2⟩
            · exact hmid
          · intro a b
            rw [walkSeqG_ifS]
            exact ⟨hst, le_rfl⟩
      | consB h t =>
          have hmh : msize h ≤ k := by
            simp [msize] at hn
            have := msize_pos t
            omega
          have hmt : msize t ≤ k := by
            simp [msize] at hn
            have := msize_pos h
            omega
          refine ⟨by rw [walkOne_consB]; exact ⟨hst, le_rfl⟩, ?_⟩
          intro a b
          cases a with
          | true =>
              rw [walkSeqG_skip]
              exact (ih t hmt st hst).2 false b
          | false =>
              cases b with
              | false =>
                  rw [walkSeqG_cons]
                  have H1 := (ih h hmh st hst).1
                  have H2 := (ih t hmt (walkOne O st h) H1.1).2 false false
                  exact ⟨H2.1, le_trans H1.2 H2.2⟩
              | true =>
                  cases t with
                  | nilB => rw [walkSeqG_last]; exact ⟨hst, le_rfl⟩
                  | consB x y =>
                      rw [walkSeqG_cons_lastT]
                      have H1 := (ih h hmh st hst).1
                      have H2 := (ih (IRNode.consB x y) hmt (walkOne O st h)
                        H1.1).2 false true
                      exact ⟨H2.1, le_trans H1.2 H2.2⟩
                  | noneB =>
                      rw [show walkSeqG O st false true (.consB h .noneB) =
                        walkOne O st h from rfl]
                      exact (ih h hmh st hst).1
                  | someB x =>
                      rw [show walkSeqG O st false true (.consB h (.someB x)) =
                        walkOne O st h from rfl]
                      exact (ih h hmh st hst).1
                  | basic i e o kk =>
                      rw [show walkSeqG O st false true
                          (.consB h (.basic i e o kk)) = walkOne O st h from rfl]
                      exact (ih h hmh st hst).1
                  | ifS i o tb fb =>
                      rw [show walkSeqG O st false true
                          (.consB h (.ifS i o tb fb)) = walkOne O st h from rfl]
                      exact (ih h hmh st hst).1

/-- One full traversal keeps the tree a well-formed block, keeps the queued
payloads well-formed, never accumulates more statements (live plus queued
payloads plus one per insertion) than the traversal started with, and as
long as no insertion was queued it leaves the statement ids untouched with
every queued erasure victim among them. -/
theorem traverseOnce_inv (O : Oracles) (es : ElimSt) (root : IRNode)
    (hw : wfB root = true) :
    WalkInv (size root) (idsOf root) (traverseOnce O es root) := by
  have h0 : WalkInv (size root) (idsOf root)
      (pushScope { root := root, visited := es.visited, scopes := es.scopes,
                   queue := [] }) := by
    refine ⟨hw, rfl, ?_, fun _ => ⟨rfl, ?_⟩⟩
    · show size root + plsSum [] + insCount [] ≤ size root
      simp [plsSum, insCount]
    · intro v hv
      simp [pushScope, victims] at hv
  exact ((walk_inv_aux O (size root) (idsOf root) (msize root) root le_rfl _
    h0).2 false false).1

theorem applyOne_size (op : EditOp) (n : IRNode) :
    size (applyOne n op) ≤ size n + plsSum [op] := by
  cases op with
  | insBefore t p =>
      have := insertBeforeFirst_size t p n
      simp only [applyOne, plsSum]
      omega
  | insAfter t p =>
      have := insertAfterFirst_size t p n
      simp only [applyOne, plsSum]
      omega
  | eraseOp v =>
      have := eraseFirst_size v n
      simp only [applyOne, plsSum]
      omega

theorem applyOne_wfB (op : EditOp) (n : IRNode) (hw : wfB n = true)
    (hq : wfQ [op] = true) : wfB (applyOne n op) = true := by
  cases op with
  | insBefore t p =>
      have hp : wfS p = true := by simpa [wfQ] using hq
      exact (insertBeforeFirst_wf t p hp n).1 hw
  | insAfter t p =>
      have hp : wfS p = true := by simpa [wfQ] using hq
      exact (insertAfterFirst_wf t p hp n).1 hw
  | eraseOp v => exact ((eraseFirst_spec v n).2.1 hw).1

theorem applyQueue_size : ∀ (q : List EditOp) (n : IRNode),
    size (applyQueue q n) ≤ size n + plsSum q := by
  intro q
  induction q with
  | nil => intro n; simp [applyQueue, plsSum]
  | cons op r ih =>
      intro n
      rw [show applyQueue (op :: r) n = applyQueue r (applyOne n op) from rfl]
      have h1 := ih (applyOne n op)
      have h2 := applyOne_size op n
      have h3 : plsSum (op :: r) = plsSum [op] + plsSum r := by
        cases op <;> simp [plsSum]
      omega

theorem applyQueue_wfB : ∀ (q : List EditOp) (n : IRNode),
    wfQ q = true → wfB n = true → wfB (applyQueue q n) = true := by
  intro q
  induction q with
  | nil => intro n _ hw; exact hw
  | cons op r ih =>
      intro n hq hw
      rw [show applyQueue (op :: r) n = applyQueue r (applyOne n op) from rfl]
      have hq1 : wfQ [op] = true ∧ wfQ r = true := by
        cases op <;> simp [wfQ] at hq ⊢ <;> tauto
      exact ih (applyOne n op) hq1.2 (applyOne_wfB op n hw hq1.1)

/-- Applying a non-empty queue whose accounted measure is within the bound
strictly shrinks the tree below the bound: an insertion has already paid for
its payload plus one, and an all-erasure queue removes at least its first
victim, which is still present in the tree. -/
theorem applyQueue_decrease (q : List EditOp) (n : IRNode) (B : Nat)
    (hw : wfB n = true) (hne : q ≠ [])
    (hm : size n + plsSum q + insCount q ≤ B)
    (hvic : insCount q = 0 → ∀ v ∈ victims q, v ∈ idsOf n) :
    size (applyQueue q n) < B := by
  cases hic : insCount q with
  | succ m =>
      have := applyQueue_size q n
      omega
  | zero =>
      cases q with
      | nil => exact absurd rfl hne
      | cons op r =>
          cases op with
          | insBefore t p => simp [insCount] at hic
          | insAfter t p => simp [insCount] at hic
          | eraseOp v =>
              have hvr : insCount r = 0 := by simpa [insCount] using hic
              have hv : v ∈ idsOf n := by
                apply hvic hic
                simp [victims]
              have hE := (eraseFirst_spec v n).2.1 hw
              have hflag := hE.2.2 hv
              have hdec := hE.2.1 hflag
              have h2 := applyQueue_size r (eraseFirst v n).1
              have h3 : plsSum r = 0 := insCount_zero_plsSum r hvr
              have h4 : plsSum (EditOp.eraseOp v :: r) = plsSum r := rfl
              rw [show applyQueue (EditOp.eraseOp v :: r) n =
                applyQueue r (eraseFirst v n).1 from rfl]
              omega

/-- With fuel exceeding the tree's statement count, the fixed-point loop
always reaches the empty-queue exit: each traversal that queues edits
strictly decreases the statement count once the edits are applied. -/
theorem runAux_total (O : Oracles) : ∀ (f : Nat) (root : IRNode) (es : ElimSt),
    wfB root = true → size root < f → runAux O f es root ≠ none := by
  intro f
  induction f with
  | zero => intro root es _ h; omega
  | succ f ih =>
      intro root es hw hf
      rw [runAux_succ]
      split
      · simp
      · rename_i hne
        obtain ⟨hw1, hq1, hm1, hc1⟩ := traverseOnce_inv O es root hw
        have hdec : size (applyQueue (traverseOnce O es root).queue
            (traverseOnce O es root).root) < size root := by
          apply applyQueue_decrease _ _ _ hw1 hne hm1
          intro h0 v hvv
          obtain ⟨hid, hv⟩ := hc1 h0
          rw [hid]
          exact hv v hvv
        have hwB : wfB (applyQueue (traverseOnce O es root).queue
            (traverseOnce O es root).root) = true :=
          applyQueue_wfB _ _ hq1 hw1
        have hrec := ih (applyQueue (traverseOnce O es root).queue
            (traverseOnce O es root).root)
          ⟨(traverseOnce O es root).visited, (traverseOnce O es root).scopes⟩
          hwB (by omega)
        cases hr : runAux O f ⟨(traverseOnce O es root).visited,
            (traverseOnce O es root).scopes⟩
            (applyQueue (traverseOnce O es root).queue
              (traverseOnce O es root).root) with
        | none => exact absurd hr hrec
        | some p =>
            obtain ⟨t, b⟩ := p
            simp

/-- Claim C7 (amended): for every well-formed input tree the fixed-point
driver loop of `run` terminates, but the decreasing measure is the total
statement count of the tree, not the count of eligible, not-yet-eliminated
statements (which a hoist of ineligible statements leaves unchanged): every
full traversal either produces an empty edit queue — ending the loop — or,
once its queued edits are applied, strictly reduces the total statement
count; consequently the driver, fueled with one more than that count, never
exhausts its fuel. -/
theorem termination_measure_amended (O : Oracles) (root : IRNode)
    (hw : wfB root = true) :
    (∀ es : ElimSt,
      (traverseOnce O es root).queue ≠ [] →
      size (applyQueue (traverseOnce O es root).queue
        (traverseOnce O es root).root) < size root) ∧
    run O root ≠ none := by
  constructor
  · intro es hne
    obtain ⟨hw1, hq1, hm1, hc1⟩ := traverseOnce_inv O es root hw
    apply applyQueue_decrease _ _ _ hw1 hne hm1
    intro h0 v hvv
    obtain ⟨hid, hv⟩ := hc1 h0
    rw [hid]
    exact hv v hvv
  · exact runAux_total O (size root + 1) root _ hw (by omega)

/-- Witness for the amended claim C7 at a concrete input: `ineligTree` is a
well-formed block whose first traversal queues an edit, the statement count
strictly drops once the edit is applied, and the driver returns a result. -/
theorem termination_measure_amended_witness :
    wfB ineligTree = true ∧
    (traverseOnce structOracle ⟨∅, []⟩ ineligTree).queue ≠ [] ∧
    size (applyQueue (traverseOnce structOracle ⟨∅, []⟩ ineligTree).queue
      (traverseOnce structOracle ⟨∅, []⟩ ineligTree).root) <
      size ineligTree ∧
    run structOracle ineligTree ≠ none :=
  ⟨by decide, by decide,
    (termination_measure_amended structOracle ineligTree (by decide)).1
      ⟨∅, []⟩ (by decide),
    (termination_measure_amended structOracle ineligTree (by decide)).2⟩

end WKCse
